import Mathlib

/-!
Verification development for the queue implementation in `queue-checkpoint.c`
(a double-ended queue over a circular, sentinel-based doubly linked list).

Modelling conventions:
* machine integers are modelled as `Int`/`Nat` with explicit reduction
  modulo `2^32` (for `int32_t`/`int`) and `2^64` (for `size_t`/pointers);
* a C string is a `List Nat` of its bytes (no embedded zero byte; the
  terminating zero byte is not part of the list);
* pointers are numeric addresses (`Nat`), `0` is the null pointer; strings
  returned by the allocator sit at even addresses (`malloc` alignment);
* a queue is `Option (List Elem)`: `none` is the NULL queue pointer, and a
  well-formed queue is identified with its element sequence from head to
  tail;
* the intrusive list substrate (`list_add`, `list_add_tail`, `list_del`,
  `list_empty`, iteration) is not part of `src/`, so its primitives are
  modelled from the spec, which describes them as sentinel-based circular
  doubly linked list operations (link-at-head, link-at-tail, unlink,
  is-empty);
* the pointer structure itself is a pair of fields `nxt`/`prv` over node
  addresses (`LState`), on which those primitives act.
-/

/-- Truncation of an integer to a signed 32-bit value (two's complement),
modelling the conversion of a wider C value to `int32_t`/`int`. -/
def toInt32 (n : Int) : Int := (n + 2 ^ 31) % 2 ^ 32 - 2 ^ 31

/-- Embedding of `abs_branchless` (queue-checkpoint.c line 91): on `int32_t`,
`a > 0 ? a : -a`.  The negation is 32-bit (so it wraps on `INT32_MIN`).
`q_remove_tail` uses the C library `abs` on the same truncated value, which
agrees with this function under two's-complement wrapping. -/
def abs_branchless (a : Int) : Int := if 0 < a then a else toInt32 (-a)

/-- Embedding of `min` (queue-checkpoint.c line 101): on `int32_t`,
`a - b > 0 ? b : a`, with the subtraction wrapping modulo `2^32`. -/
def min32 (a b : Int) : Int := if 0 < toInt32 (a - b) then b else a

/-- Embedding of `strcmp` restricted to byte lists without embedded zero
bytes: result is negative, zero or positive according to the first
differing byte, a missing byte (the terminator) comparing below any
nonzero byte. -/
def strCmp : List Nat → List Nat → Int
  | [], [] => 0
  | [], _ :: _ => -1
  | _ :: _, [] => 1
  | a :: as, b :: bs => if a < b then -1 else if b < a then 1 else strCmp as bs

/-- Element of the queue (`element_t`): the address of its embedded list
node, the address of its `strdup`-ed string, and the string's bytes. -/
structure Elem where
  nid : Nat
  vptr : Nat
  val : List Nat
deriving DecidableEq

/-- The copy length computed by `q_remove_head`/`q_remove_tail`
(queue-checkpoint.c lines 128-129 and 149-150):
`min(min(bufsize - 1, strlen(value) + 1), abs((intptr_t) sp) - 1)`.
`bufsize - 1` wraps in `size_t` and is then truncated to `int32_t`, as are
`strlen + 1` and the pointer value. -/
def copyLen (bufsize spAddr slen : Nat) : Int :=
  min32 (min32 (toInt32 ((bufsize : Int) - 1)) (toInt32 ((slen : Int) + 1)))
    (toInt32 (abs_branchless (toInt32 (spAddr : Int)) - 1))

/-- The sequence of writes `(index, byte)` performed into the destination
buffer by the copy loop of `q_remove_head`/`q_remove_tail`
(queue-checkpoint.c lines 130-135): indices `len, len-1, ..., 0` with
`sp[k] = value[k] & mask`, where `mask` is all-ones except on the first
iteration (`k = len`, `len ^ i = 0`), which stores a zero byte.  The loop
body never runs when the computed length is negative.  The only read of
`value` at an index past the terminator is the masked first iteration, so
the default byte `0` of `getD` is never observable. -/
def copyWrites (value : List Nat) (bufsize spAddr : Nat) : List (Nat × Nat) :=
  let len := copyLen bufsize spAddr value.length
  if len < 0 then []
  else
    (List.range (len.toNat + 1)).reverse.map
      (fun k => (k, if k = len.toNat then 0 else value.getD k 0))

/-- Embedding of `q_remove_head` (queue-checkpoint.c line 122): returns the
detached element (`none` when the queue is NULL or empty), the remaining
queue, and the writes performed into the caller's buffer. -/
def q_remove_head (q : Option (List Elem)) (spAddr bufsize : Nat) :
    Option Elem × Option (List Elem) × List (Nat × Nat) :=
  match q with
  | none => (none, none, [])
  | some [] => (none, some [], [])
  | some (x :: rest) => (some x, some rest, copyWrites x.val bufsize spAddr)

/-- Embedding of `q_remove_tail` (queue-checkpoint.c line 143): same as
`q_remove_head` but detaching `head->prev`, the last element. -/
def q_remove_tail (q : Option (List Elem)) (spAddr bufsize : Nat) :
    Option Elem × Option (List Elem) × List (Nat × Nat) :=
  match q with
  | none => (none, none, [])
  | some [] => (none, some [], [])
  | some (x :: rest) =>
    let y := (x :: rest).getLast (List.cons_ne_nil x rest)
    (some y, some (x :: rest).dropLast, copyWrites y.val bufsize spAddr)

/-! Duplicate deletion (`q_delete_dup`, queue-checkpoint.c lines 221-245). -/

/-- The low 64 bits of an `intptr_t` mask value, as used when a pointer is
bitwise-anded with the mask. -/
def maskBits (m : Int) : Nat := (m % 2 ^ 64).toNat

/-- The bytes stored at a string address.  Element strings are alive
whenever the code dereferences `del_patten` (the pointer always comes from
the not-yet-deleted `safe` element of the same iteration), so looking the
address up among the original elements is faithful. -/
def lookupVal (env : List Elem) (p : Nat) : List Nat :=
  match env.find? (fun e => e.vptr = p) with
  | some e => e.val
  | none => []

/-- The updated `del_patten` pointer of one `q_delete_dup` iteration
(queue-checkpoint.c lines 232-234).  The mask is
`-(!strcmp(node->value, safe->value)) | (node->value == del_patten)`,
that is all-ones on equal strings, else the pointer-equality bit, and
`del_patten` becomes `safe->value & mask`. -/
def dedupNext (delPat : Nat) (node safe : Elem) : Nat :=
  Nat.land safe.vptr
    (maskBits (if strCmp node.val safe.val = 0 then -1
      else if node.vptr = delPat then 1 else 0))

/-- The deletion test of `q_delete_dup` (lines 235 and 240):
`del_patten && !strcmp(del_patten, node->value)`. -/
def dedupKill (env : List Elem) (delPat : Nat) (node : Elem) : Prop :=
  delPat ≠ 0 ∧ strCmp (lookupVal env delPat) node.val = 0

instance (env : List Elem) (delPat : Nat) (node : Elem) :
    Decidable (dedupKill env delPat node) := by
  unfold dedupKill; infer_instance

/-- One loop iteration of `q_delete_dup` (queue-checkpoint.c lines 228-243)
as a recursion over `node` and the remaining elements starting at `safe`;
`delPat` is the numeric value of the `del_patten` pointer.  The final
match arm is the trailing check after the loop (lines 240-243), where
`node` is the last element.  The node is unlinked and freed when the new
`del_patten` is non-null and compares equal to the node's string. -/
def dedupGo (env : List Elem) : Nat → Elem → List Elem → List Elem
  | delPat, node, [] =>
    if dedupKill env delPat node then [] else [node]
  | delPat, node, safe :: rest =>
    let delPat2 := dedupNext delPat node safe
    if dedupKill env delPat2 node then dedupGo env delPat2 safe rest
    else node :: dedupGo env delPat2 safe rest

/-- Embedding of `q_delete_dup`: `false` exactly on a NULL queue; the
surviving elements in order otherwise. -/
def q_delete_dup : Option (List Elem) → Bool × Option (List Elem)
  | none => (false, none)
  | some [] => (true, some [])
  | some (x :: xs) => (true, some (dedupGo (x :: xs) 0 x xs))

/-! Middle deletion (`q_delete_mid`, queue-checkpoint.c lines 193-210). -/

/-- The two-cursor loop of `q_delete_mid` on cursor positions (`i` counts
from the head, `j` from the tail, both zero-based): `node` is assigned `i`
when the cursors meet and `j` when they become adjacent; otherwise both
advance.  The C loop is unbounded (`while (!node)`); the fuel argument
only serves termination and is proved sufficient below. -/
def midWalkF : Nat → Nat → Nat → Option Nat
  | 0, _, _ => none
  | f + 1, i, j =>
    if i = j then some i
    else if i + 1 = j then some j
    else midWalkF f (i + 1) (j - 1)

/-- Embedding of `q_delete_mid`: `false` on a NULL or empty queue,
otherwise the element chosen by the cursor walk starting at positions `0`
and `n - 1` is unlinked and freed.  The `none` fuel branch is unreachable
(`midWalkF_start` below). -/
def q_delete_mid : Option (List Elem) → Bool × Option (List Elem)
  | none => (false, none)
  | some [] => (false, some [])
  | some (x :: xs) =>
    match midWalkF (x :: xs).length 0 ((x :: xs).length - 1) with
    | some k => (true, some ((x :: xs).eraseIdx k))
    | none => (true, some (x :: xs))

/-! Merge sort (`merge`, `merge_sort`, `q_sort`,
queue-checkpoint.c lines 288-347). -/

/-- Number of iterations of the slow/fast split loop of `merge_sort`
(queue-checkpoint.c lines 315-317), as a function of the chain starting at
`last` (initially `head->next`): the loop runs while `last && last->next`,
advancing `last` two links per iteration. -/
def hareSteps : List α → Nat
  | [] => 0
  | [_] => 0
  | _ :: _ :: r => hareSteps r + 1

/-- Embedding of `merge` (queue-checkpoint.c lines 288-303), generic in the
comparison: while both chains are non-null, take from the chain whose head
is not greater (`strcmp(a, b) <= 0` takes from `a`, so ties take from the
first chain); the final `*tail = a | b` appends whichever chain is left.
The loop consumes one node per iteration, so any fuel at least the total
length is enough; the out-of-fuel arm is unreachable then. -/
def mergeCF (le : α → α → Bool) : Nat → List α → List α → List α
  | _, [], b => b
  | _, a, [] => a
  | 0, a, _ => a
  | f + 1, x :: xs, y :: ys =>
    if le x y then x :: mergeCF le f xs (y :: ys)
    else y :: mergeCF le f (x :: xs) ys

/-- Embedding of `merge_sort` (queue-checkpoint.c lines 310-324): a chain
of at most one node is returned as is; otherwise the slow/fast pointer
pair splits the chain after `hareSteps + 1` nodes and the two halves are
sorted and merged.  The C recursion is unbounded; the fuel argument (one
unit per recursion level is more than enough) only serves termination and
the `0, l` arm is unreachable for fuel at least the chain length. -/
def mergeSortF (le : α → α → Bool) : Nat → List α → List α
  | _, [] => []
  | _, [x] => [x]
  | 0, l => l
  | f + 1, x :: y :: rest =>
    let k := hareSteps (y :: rest) + 1
    mergeCF le (x :: y :: rest).length
      (mergeSortF le f ((x :: y :: rest).take k))
      (mergeSortF le f ((x :: y :: rest).drop k))

/-- The comparison used by `merge` on elements:
`strcmp(a->value, b->value) <= 0`. -/
def leElem (a b : Elem) : Bool := decide (strCmp a.val b.val ≤ 0)

/-- Embedding of `q_sort` (queue-checkpoint.c lines 332-347): no effect on
a NULL queue or when `head->next == head->prev` (which for a well-formed
queue means at most one element); otherwise the chain is severed, sorted
by `merge_sort`, and relinked. -/
def q_sort (q : Option (List Elem)) : Option (List Elem) :=
  match q with
  | none => none
  | some xs =>
    if xs.length ≤ 1 then some xs else some (mergeSortF leElem xs.length xs)

/-! Insertion (`q_insert_head` / `q_insert_tail`,
queue-checkpoint.c lines 48-62 and 71-85). -/

/-- Embedding of `q_insert_head`: the allocator is an oracle (`nodeOk` for
the `malloc` of the node, `strOk` for `strdup`; `nid`/`vptr` the addresses
it would return).  The result carries the success flag, the queue
afterwards, the list of addresses allocated during the call, and the list
of addresses freed during the call.  Following the source: a NULL queue
fails before allocating; a failed node allocation allocates nothing; a
failed `strdup` frees the node before returning; on success the node is
linked at the head and owns the fresh copy of the string. -/
def q_insert_head (q : Option (List Elem)) (s : List Nat)
    (nodeOk strOk : Bool) (nid vptr : Nat) :
    Bool × Option (List Elem) × List Nat × List Nat :=
  match q with
  | none => (false, none, [], [])
  | some xs =>
    if nodeOk = false then (false, some xs, [], [])
    else if strOk = false then (false, some xs, [nid], [nid])
    else (true, some (⟨nid, vptr, s⟩ :: xs), [nid, vptr], [])

/-- Embedding of `q_insert_tail`: identical to `q_insert_head` except that
the successful node is linked at the tail (`list_add_tail`). -/
def q_insert_tail (q : Option (List Elem)) (s : List Nat)
    (nodeOk strOk : Bool) (nid vptr : Nat) :
    Bool × Option (List Elem) × List Nat × List Nat :=
  match q with
  | none => (false, none, [], [])
  | some xs =>
    if nodeOk = false then (false, some xs, [], [])
    else if strOk = false then (false, some xs, [nid], [nid])
    else (true, some (xs ++ [⟨nid, vptr, s⟩]), [nid, vptr], [])

/-! Pointer-level model of the circular doubly linked list.  Node addresses
are natural numbers; the state consists of the two link fields of every
node.  The list primitives below are modelled from the spec (section 6):
the intrusive list substrate is an external collaborator providing
link-at-head, link-at-tail, unlink and is-empty over a sentinel-based
circular doubly linked list; their bodies follow the standard Linux-style
`list.h` the spec describes. -/

structure LState where
  nxt : Nat → Nat
  prv : Nat → Nat

/-- Write the successor field of node `i`. -/
def setNxt (s : LState) (i v : Nat) : LState :=
  ⟨Function.update s.nxt i v, s.prv⟩

/-- Write the predecessor field of node `i`. -/
def setPrv (s : LState) (i v : Nat) : LState :=
  ⟨s.nxt, Function.update s.prv i v⟩

/-- Modelled from the spec: `list_add node head` links `node` right after
`head` (link-at-head): `next = head->next; next->prev = node;
node->next = next; node->prev = head; head->next = node`. -/
def list_add (s : LState) (node head : Nat) : LState :=
  let nx := s.nxt head
  setNxt (setPrv (setNxt (setPrv s nx node) node nx) node head) head node

/-- Modelled from the spec: `list_add_tail node head` links `node` right
before `head` (link-at-tail): `prev = head->prev; prev->next = node;
node->next = head; node->prev = prev; head->prev = node`. -/
def list_add_tail (s : LState) (node head : Nat) : LState :=
  let pv := s.prv head
  setPrv (setPrv (setNxt (setNxt s pv node) node head) node pv) head node

/-- Modelled from the spec: `list_del node` unlinks `node`:
`node->next->prev = node->prev; node->prev->next = node->next`.  The
unlinked node keeps its stale fields. -/
def list_del (s : LState) (node : Nat) : LState :=
  let nx := s.nxt node
  let pv := s.prv node
  setNxt (setPrv s nx pv) pv nx

/-- The cyclically consecutive pairs of a ring listed from `first`:
`chainPairs first l` pairs each entry of `l` with its successor, the last
one wrapping around to `first`. -/
def chainPairs (first : Nat) : List Nat → List (Nat × Nat)
  | [] => []
  | [y] => [(y, first)]
  | y :: z :: rest => (y, z) :: chainPairs first (z :: rest)

/-- All cyclically consecutive pairs of a ring. -/
def ringPairs : List Nat → List (Nat × Nat)
  | [] => []
  | x :: xs => chainPairs x (x :: xs)

/-- Well-formedness of a pointer state for the ring `r` (sentinel first,
then the elements in traversal order): the nodes are distinct, and the
two link fields realize exactly the cyclic successor relation of `r`. -/
def RingInv (s : LState) (r : List Nat) : Prop :=
  r.Nodup ∧ ∀ p ∈ ringPairs r, s.nxt p.1 = p.2 ∧ s.prv p.2 = p.1

instance (s : LState) (r : List Nat) : Decidable (RingInv s r) := by
  unfold RingInv; infer_instance

/-- The circular-consistency invariant of the spec (section 3): for every
node of the ring, its successor's predecessor and its predecessor's
successor are the node itself. -/
def Consistent (s : LState) (r : List Nat) : Prop :=
  ∀ y ∈ r, s.prv (s.nxt y) = y ∧ s.nxt (s.prv y) = y

instance (s : LState) (r : List Nat) : Decidable (Consistent s r) := by
  unfold Consistent; infer_instance

/-- Pointer-level `q_remove_head` (only the link structure: the unlink of
`head->next` behind the `list_empty` test). -/
def q_remove_headP (s : LState) (h : Nat) : LState :=
  if s.nxt h = h then s else list_del s (s.nxt h)

/-- Pointer-level `q_remove_tail`: the unlink of `head->prev`. -/
def q_remove_tailP (s : LState) (h : Nat) : LState :=
  if s.nxt h = h then s else list_del s (s.prv h)

/-- Pointer-level `q_insert_head` (successful path): `list_add` at the
sentinel. -/
def q_insert_headP (s : LState) (h node : Nat) : LState := list_add s node h

/-- Pointer-level `q_insert_tail` (successful path): `list_add_tail` at
the sentinel. -/
def q_insert_tailP (s : LState) (h node : Nat) : LState :=
  list_add_tail s node h

/-- The two-cursor loop of `q_delete_mid` on the pointer state, cursors
being node addresses (`next` and `prev` of the source); fuel as in
`midWalkF`. -/
def midWalkP (s : LState) : Nat → Nat → Nat → Option Nat
  | 0, _, _ => none
  | f + 1, a, b =>
    if a = b then some a
    else if s.nxt a = b then some b
    else midWalkP s f (s.nxt a) (s.prv b)

/-- Pointer-level `q_delete_mid`: empty test, cursor walk from
`head->next` and `head->prev`, then unlink of the chosen node.  The
`none` fuel branch is unreachable for fuel at least the element count. -/
def q_delete_midP (s : LState) (h fuel : Nat) : LState :=
  if s.nxt h = h then s
  else
    match midWalkP s fuel (s.nxt h) (s.prv h) with
    | some node => list_del s node
    | none => s

/-- Pointer-level `q_delete_dup`: same traversal as `dedupGo`, threading
the state and unlinking each killed node. -/
def q_delete_dupP (env : List Elem) : LState → Nat → Elem → List Elem → LState
  | s, delPat, node, [] =>
    if dedupKill env delPat node then list_del s node.nid else s
  | s, delPat, node, safe :: rest =>
    let delPat2 := dedupNext delPat node safe
    let s2 := if dedupKill env delPat2 node then list_del s node.nid else s
    q_delete_dupP env s2 delPat2 safe rest

/-- The walk collecting the element nodes of the queue by following
successor fields from `cur` until the sentinel `stop` comes back around
(with fuel; the element count is enough). -/
def extractChain (s : LState) (stop : Nat) : Nat → Nat → List Nat
  | 0, _ => []
  | f + 1, cur =>
    if cur = stop then [] else cur :: extractChain s stop f (s.nxt cur)

/-- One iteration of the `q_reverse` loop body on node `y`
(queue-checkpoint.c lines 278-279): `node->next = node->prev;
node->prev = safe`, where `safe` holds the old `node->next`. -/
def swapNode (s : LState) (y : Nat) : LState :=
  setPrv (setNxt s y (s.prv y)) y (s.nxt y)

/-- Pointer-level `q_reverse` (queue-checkpoint.c lines 272-283): the
safe iteration visits every element and finally the sentinel itself
(lines 281-282), swapping the two link fields of each. -/
def q_reverseP (s : LState) (h fuel : Nat) : LState :=
  (extractChain s h fuel (s.nxt h) ++ [h]).foldl swapNode s

/-- The loop of `q_swap` (queue-checkpoint.c lines 256-262): stop when the
cursor or its successor is the sentinel; otherwise unlink the cursor,
re-link it right after its successor, and continue from the cursor's new
successor (`safe = node->next` after the relink). -/
def q_swapPGo (h : Nat) : Nat → LState → Nat → LState
  | 0, s, _ => s
  | f + 1, s, node =>
    if node = h then s
    else
      let safe := s.nxt node
      if safe = h then s
      else
        let s2 := list_add (list_del s node) node safe
        q_swapPGo h f s2 (s2.nxt node)

/-- Pointer-level `q_swap`: the loop starting at `head->next`. -/
def q_swapP (s : LState) (h fuel : Nat) : LState :=
  q_swapPGo h fuel s (s.nxt h)

/-- The element order produced by pairwise swapping. -/
def swapPairs : List α → List α
  | a :: b :: r => b :: a :: swapPairs r
  | r => r

/-- Rewriting of both link fields along all cyclic pairs of a ring: this
is the net pointer effect of `q_sort` (queue-checkpoint.c lines 337-346)
once `merge_sort` has arranged the `next` chain in sorted order — the
rebuild pass sets every backward link and closes the circle, so every
node of the new ring gets exactly the links of the sorted cyclic order,
and nodes outside the ring are untouched. -/
def relink (s : LState) (r : List Nat) : LState :=
  (ringPairs r).foldl (fun t p => setPrv (setNxt t p.1 p.2) p.2 p.1) s

/-- Pointer-level `q_sort`: no effect when `head->next == head->prev`;
otherwise the element chain is severed, sorted by the embedded
`merge_sort` (generic in the node comparison `lt`), and relinked
circularly. -/
def q_sortP (s : LState) (h : Nat) (lt : Nat → Nat → Bool) (fuel : Nat) :
    LState :=
  if s.nxt h = s.prv h then s
  else relink s (h :: mergeSortF lt fuel (extractChain s h fuel (s.nxt h)))

/-- A concrete well-formed four-node ring (sentinel 0, elements 1, 2, 3)
used to witness the pointer-level theorems. -/
def demoState : LState :=
  ⟨fun y => if y = 0 then 1 else if y = 1 then 2 else
      if y = 2 then 3 else if y = 3 then 0 else y,
    fun y => if y = 0 then 3 else if y = 1 then 0 else
      if y = 2 then 1 else if y = 3 then 2 else y⟩

/-! Arithmetic facts about the truncated copy length. -/

theorem toInt32_range (n : Int) : -2 ^ 31 ≤ toInt32 n ∧ toInt32 n < 2 ^ 31 := by
  unfold toInt32; omega

theorem toInt32_eq_self {n : Int} (h1 : -2 ^ 31 ≤ n) (h2 : n < 2 ^ 31) :
    toInt32 n = n := by
  unfold toInt32; omega

/-- With `bufsize = 0` and a string of ordinary length, the computed copy
length is negative whatever the buffer address is. -/
theorem copyLen_bufsize_zero_neg (addr L : Nat) (hL : L + 1 < 2 ^ 31) :
    copyLen 0 addr L < 0 := by
  unfold copyLen
  have h1 : toInt32 ((0 : Nat) - 1 : Int) = -1 := by unfold toInt32; norm_num
  have h2 : toInt32 ((L : Int) + 1) = (L : Int) + 1 := by
    apply toInt32_eq_self <;> omega
  rw [h1, h2]
  have hm1 : min32 (-1) ((L : Int) + 1) = -1 := by
    unfold min32
    have : toInt32 (-1 - ((L : Int) + 1)) = -1 - ((L : Int) + 1) := by
      apply toInt32_eq_self <;> omega
    rw [this]
    simp; omega
  rw [hm1]
  have ht := toInt32_range (abs_branchless (toInt32 (addr : Int)) - 1)
  set t3 := toInt32 (abs_branchless (toInt32 (addr : Int)) - 1) with ht3
  unfold min32
  have : toInt32 (-1 - t3) = -1 - t3 := by apply toInt32_eq_self <;> omega
  rw [this]
  split <;> omega

theorem copyWrites_bufsize_zero (v : List Nat) (addr : Nat)
    (h : v.length + 1 < 2 ^ 31) : copyWrites v 0 addr = [] := by
  unfold copyWrites
  simp [copyLen_bufsize_zero_neg addr v.length h]

/-- C1: the claim states that on a successful removal with a non-null
buffer of size at least 1, exactly `min(bufsize - 1, strlen)` bytes of the
removed string are copied, regardless of the numeric value of the buffer's
address.  The code disagrees: its copy length also takes
`abs((intptr_t) sp) - 1` into account, so for the one-element queue holding
the string "abc", a buffer of size 10 at address 2 receives only the byte
of "a" and a terminator at index 1, instead of all three bytes and a
terminator at index 3. -/
theorem c1_copy_truncated_by_buffer_address :
    q_remove_head (some [⟨1, 2, [97, 98, 99]⟩]) 2 10 =
      (some ⟨1, 2, [97, 98, 99]⟩, some [], [(1, 0), (0, 97)]) := by decide

/-- C10 (amended): on a non-empty queue, removal with `buffer_size = 0`
still succeeds, detaches the end element, and writes nothing into the
buffer — provided the removed string is shorter than `2^31 - 1` bytes, so
that the `int32_t` truncation of `strlen + 1` stays positive and the
computed copy length is negative. -/
theorem c10_remove_bufsize_zero_writes_nothing :
    (∀ (x : Elem) (rest : List Elem) (addr : Nat), x.val.length + 1 < 2 ^ 31 →
      q_remove_head (some (x :: rest)) addr 0 = (some x, some rest, [])) ∧
    (∀ (ys : List Elem) (y : Elem) (addr : Nat), y.val.length + 1 < 2 ^ 31 →
      q_remove_tail (some (ys ++ [y])) addr 0 = (some y, some ys, [])) := by
  constructor
  · intro x rest addr h
    simp [q_remove_head, copyWrites_bufsize_zero x.val addr h]
  · intro ys y addr h
    cases ys with
    | nil => simp [q_remove_tail, copyWrites_bufsize_zero y.val addr h]
    | cons a t =>
      have hg : (a :: (t ++ [y])).getLast (List.cons_ne_nil _ _) = y := by
        rw [List.getLast_cons (by simp), List.getLast_append_of_ne_nil (by simp)]
        simp
      have hd : (a :: (t ++ [y])).dropLast = a :: t := by
        rw [← List.cons_append]
        exact List.dropLast_concat
      simp [q_remove_tail, hg, hd, copyWrites_bufsize_zero y.val addr h]

/-- Witness for the amended C10 statement at concrete inputs. -/
theorem c10_witness :
    q_remove_head (some [⟨1, 2, [97]⟩]) 5 0 = (some ⟨1, 2, [97]⟩, some [], []) ∧
    q_remove_tail (some ([⟨1, 2, [97]⟩] ++ [⟨3, 4, [98]⟩])) 5 0 =
      (some ⟨3, 4, [98]⟩, some [⟨1, 2, [97]⟩], []) :=
  ⟨c10_remove_bufsize_zero_writes_nothing.1 ⟨1, 2, [97]⟩ [] 5 (by norm_num),
   c10_remove_bufsize_zero_writes_nothing.2 [⟨1, 2, [97]⟩] ⟨3, 4, [98]⟩ 5 (by norm_num)⟩

/-- C10 as literally stated is false: for a stored string of length
`2^31 - 1` the truncated `strlen + 1` term becomes negative, the wrapped
comparisons inside the branchless `min` select a nonnegative copy length
(here 1), and the loop writes two bytes into the zero-sized buffer. -/
theorem c10_counterexample :
    (q_remove_head (some [⟨1, 2, List.replicate (2 ^ 31 - 1) 97⟩]) 2 0).2.2 ≠ [] := by
  have hl : copyLen 0 2 (2 ^ 31 - 1) = 1 := by decide
  simp only [q_remove_head]
  unfold copyWrites
  rw [List.length_replicate, hl]
  norm_num

/-- The cursor walk lands on `i + (j - i + 1) / 2` whenever it starts at
`i ≤ j` with enough fuel. -/
theorem midWalkF_correct :
    ∀ (f i j : Nat), i ≤ j → j - i + 1 ≤ 2 * f →
      midWalkF f i j = some (i + (j - i + 1) / 2) := by
  intro f
  induction f with
  | zero => intro i j hij hf; omega
  | succ f ih =>
    intro i j hij hf
    unfold midWalkF
    by_cases h1 : i = j
    · subst h1; simp
    · simp only [h1, if_false]
      by_cases h2 : i + 1 = j
      · simp only [h2, if_true]
        congr 1
        omega
      · simp only [h2, if_false]
        rw [ih (i + 1) (j - 1) (by omega) (by omega)]
        congr 1
        omega

/-- From the initial cursor positions `0` and `n - 1`, the walk picks the
zero-based index `n / 2`. -/
theorem midWalkF_start (n : Nat) (h : 1 ≤ n) :
    midWalkF n 0 (n - 1) = some (n / 2) := by
  rw [midWalkF_correct n 0 (n - 1) (by omega) (by omega)]
  congr 1
  omega

/-- C4: on any non-empty queue of `n` elements, `delete_middle` removes
exactly the element at zero-based index `n / 2`, keeps the others in
order, and returns true; on a NULL or empty queue it returns false and
changes nothing. -/
theorem c4_delete_mid_floor_half :
    (∀ (x : Elem) (xs : List Elem),
      q_delete_mid (some (x :: xs)) =
        (true, some ((x :: xs).eraseIdx ((x :: xs).length / 2)))) ∧
    q_delete_mid none = (false, none) ∧
    q_delete_mid (some []) = (false, some []) := by
  refine ⟨?_, rfl, rfl⟩
  intro x xs
  have h := midWalkF_start (xs.length + 1) (by omega)
  have h2 : midWalkF (xs.length + 1) 0 xs.length = some ((xs.length + 1) / 2) := by
    simpa using h
  simp [q_delete_mid, h2]

/-- C3 as stated is false: on the six-element queue with strings
a, b, c, d, e, f the code does not leave a, b, d, e, f (it deletes the
element at index `⌊6/2⌋ = 3`, not index 2). -/
theorem c3_counterexample :
    q_delete_mid (some [⟨1, 2, [97]⟩, ⟨3, 4, [98]⟩, ⟨5, 6, [99]⟩,
        ⟨7, 8, [100]⟩, ⟨9, 10, [101]⟩, ⟨11, 12, [102]⟩]) ≠
      (true, some [⟨1, 2, [97]⟩, ⟨3, 4, [98]⟩, ⟨7, 8, [100]⟩,
        ⟨9, 10, [101]⟩, ⟨11, 12, [102]⟩]) := by decide

/-- C3 (amended): on the six-element queue a, b, c, d, e, f,
`delete_middle` removes the element "d" at zero-based index 3 (which is
`⌊6/2⌋`), leaving a, b, c, e, f. -/
theorem c3_delete_mid_six :
    q_delete_mid (some [⟨1, 2, [97]⟩, ⟨3, 4, [98]⟩, ⟨5, 6, [99]⟩,
        ⟨7, 8, [100]⟩, ⟨9, 10, [101]⟩, ⟨11, 12, [102]⟩]) =
      (true, some [⟨1, 2, [97]⟩, ⟨3, 4, [98]⟩, ⟨5, 6, [99]⟩,
        ⟨9, 10, [101]⟩, ⟨11, 12, [102]⟩]) := by decide

/-- C2: the claim (also the code's own comment) says only strings occurring
exactly once survive, so the sorted queue a, a, b, c, c should become b.
The code instead keeps the last element of every duplicate run except the
final one: with value addresses 2, 4, 6, 8, 10 (even, as malloc guarantees)
the result is a, b. -/
theorem c2_delete_dup_keeps_last_of_run :
    q_delete_dup (some [⟨1, 2, [97]⟩, ⟨3, 4, [97]⟩, ⟨5, 6, [98]⟩,
        ⟨7, 8, [99]⟩, ⟨9, 10, [99]⟩]) =
      (true, some [⟨3, 4, [97]⟩, ⟨5, 6, [98]⟩]) := by decide

/-! Facts about the string ordering. -/

theorem strCmp_self : ∀ (a : List Nat), strCmp a a = 0
  | [] => rfl
  | x :: as => by simp [strCmp, strCmp_self as]

theorem strCmp_swap : ∀ (a b : List Nat), strCmp b a = -strCmp a b
  | [], [] => rfl
  | [], _ :: _ => rfl
  | _ :: _, [] => rfl
  | x :: as, y :: bs => by
    simp only [strCmp]
    split_ifs <;> first | omega | exact strCmp_swap as bs

theorem strCmp_trans : ∀ (a b c : List Nat),
    strCmp a b ≤ 0 → strCmp b c ≤ 0 → strCmp a c ≤ 0
  | [], _, [] => fun _ _ => by simp [strCmp]
  | [], _, _ :: _ => fun _ _ => by simp [strCmp]
  | _ :: _, [], _ => fun h1 _ => absurd h1 (by simp [strCmp])
  | _ :: _, _ :: _, [] => fun _ h2 => absurd h2 (by simp [strCmp])
  | x :: as, y :: bs, z :: cs => fun h1 h2 => by
    simp only [strCmp] at h1 h2 ⊢
    split_ifs at h1 h2 ⊢ <;> try omega
    exact strCmp_trans as bs cs h1 h2

theorem leElem_trans : ∀ (a b c : Elem), leElem a b → leElem b c → leElem a c := by
  intro a b c h1 h2
  simp only [leElem, decide_eq_true_eq] at h1 h2 ⊢
  exact strCmp_trans a.val b.val c.val h1 h2

theorem leElem_total : ∀ (a b : Elem), leElem a b || leElem b a := by
  intro a b
  simp only [leElem, Bool.or_eq_true, decide_eq_true_eq]
  have h := strCmp_swap a.val b.val
  omega

/-! The C merge sort agrees with the stable `List.mergeSort` of the
standard library (same split point, same tie-breaking merge). -/

theorem hareSteps_eq : ∀ (l : List α), hareSteps l = l.length / 2
  | [] => by simp [hareSteps]
  | [_] => by simp [hareSteps]
  | _ :: _ :: r => by
    simp only [hareSteps, hareSteps_eq r, List.length_cons]
    omega

theorem mergeCF_eq_merge (le : α → α → Bool) :
    ∀ (f : Nat) (a b : List α), a.length + b.length ≤ f + 1 →
      mergeCF le f a b = List.merge a b le := by
  intro f
  induction f with
  | zero =>
    intro a b h
    match a, b with
    | [], b => simp [mergeCF]
    | x :: xs, [] => simp [mergeCF]
    | x :: xs, y :: ys => simp at h; omega
  | succ f ih =>
    intro a b h
    match a, b with
    | [], b => simp [mergeCF]
    | x :: xs, [] => simp [mergeCF]
    | x :: xs, y :: ys =>
      rw [mergeCF, List.cons_merge_cons]
      split
      · rw [ih xs (y :: ys) (by simp at h ⊢; omega)]
      · rw [ih (x :: xs) ys (by simp at h ⊢; omega)]

theorem mergeSortF_eq_mergeSort (le : α → α → Bool) :
    ∀ (f : Nat) (l : List α), l.length ≤ f →
      mergeSortF le f l = List.mergeSort l le := by
  intro f
  induction f with
  | zero =>
    intro l h
    match l with
    | [] => simp [mergeSortF, List.mergeSort]
    | _ :: _ => simp at h
  | succ f ih =>
    intro l h
    match l with
    | [] => simp [mergeSortF, List.mergeSort]
    | [x] => simp [mergeSortF, List.mergeSort]
    | x :: y :: rest =>
      have hh := hareSteps_eq (y :: rest)
      have hlen2 : (x :: y :: rest).length = rest.length + 2 := by simp
      simp only [List.length_cons] at hh
      rw [mergeSortF, List.mergeSort]
      rw [ih _ (by simp only [List.length_take, List.length_cons] at h ⊢; omega),
        ih _ (by simp only [List.length_drop, List.length_cons] at h ⊢; omega)]
      rw [mergeCF_eq_merge le _ _ _
        (by
          simp only [List.length_mergeSort, List.length_take, List.length_drop,
            List.length_cons]
          omega)]
      have hk : hareSteps (y :: rest) + 1 = (rest.length + 1 + 1 + 1) / 2 := by
        rw [hareSteps_eq]
        simp only [List.length_cons]
        omega
      have hlen : (x :: y :: rest).length = rest.length + 1 + 1 := by simp
      congr 1
      · congr 2
        simp only [List.splitInTwo_fst]
        rw [hk]
        simp only [List.length_cons]
      · congr 2
        simp only [List.splitInTwo_snd]
        rw [hk]
        simp only [List.length_cons]

theorem q_sort_eq : ∀ (xs : List Elem),
    q_sort (some xs) = some (List.mergeSort xs leElem)
  | [] => by simp [q_sort, List.mergeSort]
  | [x] => by simp [q_sort, List.mergeSort]
  | x :: y :: t => by
    have h : ¬((x :: y :: t).length ≤ 1) := by simp
    simp only [q_sort, h, if_false]
    rw [mergeSortF_eq_mergeSort leElem (x :: y :: t).length _ le_rfl]

/-- C5: `sort` leaves a NULL, empty or one-element queue unchanged and
otherwise rearranges the elements into a permutation that is sorted
ascending by `strcmp` and stable: for every string value, the elements
carrying that value appear in the output exactly as they appeared in the
input. -/
theorem c5_sort_sorted_and_stable :
    q_sort none = none ∧
    (∀ xs : List Elem, xs.length ≤ 1 → q_sort (some xs) = some xs) ∧
    (∀ xs : List Elem, ∃ ys : List Elem,
      q_sort (some xs) = some ys ∧ ys.Perm xs ∧
      ys.Pairwise (fun a b => strCmp a.val b.val ≤ 0) ∧
      ∀ v : List Nat, ys.filter (fun e => decide (e.val = v)) =
        xs.filter (fun e => decide (e.val = v))) := by
  refine ⟨rfl, ?_, ?_⟩
  · intro xs h
    simp [q_sort, h]
  · intro xs
    refine ⟨List.mergeSort xs leElem, q_sort_eq xs,
      List.mergeSort_perm xs leElem, ?_, ?_⟩
    · have hs := List.sorted_mergeSort leElem_trans leElem_total xs
      exact hs.imp (fun h => by simpa [leElem] using h)
    · intro v
      set p := fun e : Elem => decide (e.val = v) with hp
      have hmem : ∀ e ∈ xs.filter p, e.val = v := by
        intro e he
        have h2 := List.of_mem_filter he
        simpa [hp] using h2
      have hA2 : (xs.filter p).Pairwise (fun a b => leElem a b) := by
        apply List.pairwise_of_forall_mem_list
        intro a ha b hb
        have h1 := hmem a ha
        have h2 := hmem b hb
        simp [leElem, h1, h2, strCmp_self]
      have hsub : List.Sublist (xs.filter p) (List.mergeSort xs leElem) :=
        List.sublist_mergeSort leElem_trans leElem_total hA2 (List.filter_sublist xs)
      have hid : (xs.filter p).filter p = xs.filter p :=
        List.filter_eq_self.mpr (fun a ha => (List.mem_filter.mp ha).2)
      have hsub2 : List.Sublist (xs.filter p) ((List.mergeSort xs leElem).filter p) := by
        have h3 := hsub.filter p
        rwa [hid] at h3
      have hlen : (xs.filter p).length = ((List.mergeSort xs leElem).filter p).length :=
        (((List.mergeSort_perm xs leElem).filter p).length_eq).symm
      exact (hsub2.eq_of_length hlen).symm

/-- Witness for the C5 statement at a concrete input, discharging the
size hypothesis of the small-queue conjunct. -/
theorem c5_witness :
    q_sort (some [⟨1, 2, [98]⟩]) = some [⟨1, 2, [98]⟩] :=
  c5_sort_sorted_and_stable.2.1 [⟨1, 2, [98]⟩] (by decide)

/-- C7: `insert_head`/`insert_tail` fail exactly on a NULL queue or a
failed allocation; on failure the queue is unchanged and every address
allocated within the call has been freed again; on success the queue gains
exactly one element at the requested end whose payload is the fresh copy
of the argument string, and nothing is freed. -/
theorem c7_insert_alloc_failure_safe :
    (∀ (q : Option (List Elem)) (s : List Nat) (nodeOk strOk : Bool) (nid vptr : Nat),
      ((q_insert_head q s nodeOk strOk nid vptr).1 = false ↔
        q = none ∨ nodeOk = false ∨ strOk = false) ∧
      ((q_insert_head q s nodeOk strOk nid vptr).1 = false →
        (q_insert_head q s nodeOk strOk nid vptr).2.1 = q ∧
        ∀ a ∈ (q_insert_head q s nodeOk strOk nid vptr).2.2.1,
          a ∈ (q_insert_head q s nodeOk strOk nid vptr).2.2.2) ∧
      (∀ xs : List Elem, q = some xs →
        (q_insert_head q s nodeOk strOk nid vptr).1 = true →
        (q_insert_head q s nodeOk strOk nid vptr).2.1 = some (⟨nid, vptr, s⟩ :: xs) ∧
        (q_insert_head q s nodeOk strOk nid vptr).2.2.2 = [])) ∧
    (∀ (q : Option (List Elem)) (s : List Nat) (nodeOk strOk : Bool) (nid vptr : Nat),
      ((q_insert_tail q s nodeOk strOk nid vptr).1 = false ↔
        q = none ∨ nodeOk = false ∨ strOk = false) ∧
      ((q_insert_tail q s nodeOk strOk nid vptr).1 = false →
        (q_insert_tail q s nodeOk strOk nid vptr).2.1 = q ∧
        ∀ a ∈ (q_insert_tail q s nodeOk strOk nid vptr).2.2.1,
          a ∈ (q_insert_tail q s nodeOk strOk nid vptr).2.2.2) ∧
      (∀ xs : List Elem, q = some xs →
        (q_insert_tail q s nodeOk strOk nid vptr).1 = true →
        (q_insert_tail q s nodeOk strOk nid vptr).2.1 = some (xs ++ [⟨nid, vptr, s⟩]) ∧
        (q_insert_tail q s nodeOk strOk nid vptr).2.2.2 = [])) := by
  constructor <;>
  · intro q s nodeOk strOk nid vptr
    cases q <;> cases nodeOk <;> cases strOk <;>
      simp [q_insert_head, q_insert_tail]

/-- Witness for C7: a failing `strdup` on a one-element queue leaves the
queue unchanged with the node freed again, and a successful tail insertion
appends the new element. -/
theorem c7_witness :
    ((q_insert_head (some [⟨1, 2, [97]⟩]) [98] true false 7 9).2.1 =
        some [⟨1, 2, [97]⟩] ∧
      ∀ a ∈ (q_insert_head (some [⟨1, 2, [97]⟩]) [98] true false 7 9).2.2.1,
        a ∈ (q_insert_head (some [⟨1, 2, [97]⟩]) [98] true false 7 9).2.2.2) ∧
    ((q_insert_tail (some [⟨1, 2, [97]⟩]) [98] true true 7 9).2.1 =
        some [⟨1, 2, [97]⟩, ⟨7, 9, [98]⟩] ∧
      (q_insert_tail (some [⟨1, 2, [97]⟩]) [98] true true 7 9).2.2.2 = []) :=
  ⟨(c7_insert_alloc_failure_safe.1 (some [⟨1, 2, [97]⟩]) [98] true false 7 9).2.1
      (by decide),
   (c7_insert_alloc_failure_safe.2 (some [⟨1, 2, [97]⟩]) [98] true true 7 9).2.2
      [⟨1, 2, [97]⟩] rfl (by decide)⟩

/-! Shape and membership facts about ring pairs. -/

theorem chainPairs_eq_zip (f : Nat) :
    ∀ (l : List Nat) (hl : l ≠ []),
      chainPairs f l = l.zip l.tail ++ [(l.getLast hl, f)]
  | [], hl => absurd rfl hl
  | [y], _ => by simp [chainPairs]
  | y :: z :: r, _ => by
    have hrec := chainPairs_eq_zip f (z :: r) (List.cons_ne_nil z r)
    show (y, z) :: chainPairs f (z :: r) = _
    rw [hrec]
    rw [List.getLast_cons (List.cons_ne_nil z r)]
    rfl

theorem ringPairs_eq (x : Nat) (xs : List Nat) :
    ringPairs (x :: xs) =
      (x :: xs).zip xs ++ [((x :: xs).getLast (List.cons_ne_nil x xs), x)] := by
  show chainPairs x (x :: xs) = _
  rw [chainPairs_eq_zip x (x :: xs) (List.cons_ne_nil x xs)]
  rfl

theorem mem_zip_tail :
    ∀ (l : List Nat) (p : Nat × Nat), p ∈ l.zip l.tail →
      p.1 ∈ l.dropLast ∧ p.2 ∈ l.tail
  | [], p => by simp
  | [a], p => by simp
  | a :: b :: l, p => by
    intro hp
    show p.1 ∈ a :: (b :: l).dropLast ∧ p.2 ∈ b :: l
    rcases List.mem_cons.mp hp with h | h
    · subst h
      exact ⟨List.mem_cons_self _ _, List.mem_cons_self _ _⟩
    · have hrec := mem_zip_tail (b :: l) p h
      exact ⟨List.mem_cons_of_mem a hrec.1, List.mem_of_mem_tail hrec.2⟩

theorem mem_of_ringPairs {r : List Nat} {p : Nat × Nat}
    (hp : p ∈ ringPairs r) : p.1 ∈ r ∧ p.2 ∈ r := by
  match r with
  | [] => simp [ringPairs] at hp
  | x :: xs =>
    rw [ringPairs_eq] at hp
    rcases List.mem_append.mp hp with h | h
    · have h2 := mem_zip_tail (x :: xs) p h
      exact ⟨List.mem_of_mem_dropLast h2.1, List.mem_of_mem_tail h2.2⟩
    · simp only [List.mem_singleton] at h
      subst h
      exact ⟨List.getLast_mem _, List.mem_cons_self _ _⟩

theorem map_fst_chainPairs (f : Nat) :
    ∀ (l : List Nat), (chainPairs f l).map Prod.fst = l
  | [] => rfl
  | [y] => rfl
  | y :: z :: r => by
    show y :: (chainPairs f (z :: r)).map Prod.fst = _
    rw [map_fst_chainPairs f (z :: r)]

theorem map_snd_chainPairs (f : Nat) :
    ∀ (l : List Nat) (_ : l ≠ []), (chainPairs f l).map Prod.snd = l.tail ++ [f]
  | [], hl => absurd rfl hl
  | [y], _ => rfl
  | y :: z :: r, _ => by
    show z :: (chainPairs f (z :: r)).map Prod.snd = _
    rw [map_snd_chainPairs f (z :: r) (List.cons_ne_nil z r)]
    rfl

theorem map_fst_ringPairs (x : Nat) (xs : List Nat) :
    (ringPairs (x :: xs)).map Prod.fst = x :: xs :=
  map_fst_chainPairs x (x :: xs)

theorem map_snd_ringPairs (x : Nat) (xs : List Nat) :
    (ringPairs (x :: xs)).map Prod.snd = xs ++ [x] :=
  map_snd_chainPairs x (x :: xs) (List.cons_ne_nil x xs)

theorem exists_pair_fst {x : Nat} {xs : List Nat} {y : Nat}
    (hy : y ∈ x :: xs) : ∃ z, (y, z) ∈ ringPairs (x :: xs) := by
  rw [← map_fst_ringPairs x xs] at hy
  obtain ⟨p, hp, hpy⟩ := List.mem_map.mp hy
  exact ⟨p.2, by rwa [show (y, p.2) = p from Prod.ext hpy.symm rfl]⟩

theorem exists_pair_snd {x : Nat} {xs : List Nat} {y : Nat}
    (hy : y ∈ x :: xs) : ∃ w, (w, y) ∈ ringPairs (x :: xs) := by
  have hy2 : y ∈ xs ++ [x] := by
    rcases List.mem_cons.mp hy with h | h
    · exact List.mem_append.mpr (Or.inr (by simp [h]))
    · exact List.mem_append.mpr (Or.inl h)
  rw [← map_snd_ringPairs x xs] at hy2
  obtain ⟨p, hp, hpy⟩ := List.mem_map.mp hy2
  exact ⟨p.1, by rwa [show (p.1, y) = p from Prod.ext rfl hpy.symm]⟩

/-- The claim's well-formedness property follows from the ring invariant. -/
theorem ringInv_consistent {s : LState} {x : Nat} {xs : List Nat}
    (h : RingInv s (x :: xs)) : Consistent s (x :: xs) := by
  intro y hy
  constructor
  · obtain ⟨z, hz⟩ := exists_pair_fst hy
    have h2 := h.2 (y, z) hz
    rw [h2.1]
    exact h2.2
  · obtain ⟨w, hw⟩ := exists_pair_snd hy
    have h2 := h.2 (w, y) hw
    rw [h2.2]
    exact h2.1

/-! Rotation invariance of the ring invariant. -/

theorem zip_tail_snoc :
    ∀ (l : List Nat) (hl : l ≠ []) (a : Nat),
      (l ++ [a]).zip ((l ++ [a]).tail) =
        l.zip l.tail ++ [(l.getLast hl, a)]
  | [], hl, a => absurd rfl hl
  | [y], _, a => by simp
  | y :: z :: r, _, a => by
    have hrec := zip_tail_snoc (z :: r) (List.cons_ne_nil z r) a
    simp only [List.cons_append, List.tail_cons, List.zip_cons_cons] at hrec ⊢
    rw [hrec, List.getLast_cons (List.cons_ne_nil z r)]

theorem mem_ringPairs_rotate (x : Nat) (xs : List Nat) (p : Nat × Nat) :
    p ∈ ringPairs (xs ++ [x]) ↔ p ∈ ringPairs (x :: xs) := by
  match xs with
  | [] => rfl
  | y :: t =>
    have hgA : (x :: y :: t).getLast (List.cons_ne_nil _ _) =
        (y :: t).getLast (List.cons_ne_nil _ _) :=
      List.getLast_cons (List.cons_ne_nil y t)
    have hA : ringPairs (x :: y :: t) =
        (x, y) :: ((y :: t).zip t ++
          [((y :: t).getLast (List.cons_ne_nil _ _), x)]) := by
      rw [ringPairs_eq, hgA]
      rfl
    have hgB : (y :: (t ++ [x])).getLast (List.cons_ne_nil _ _) = x := by
      rw [List.getLast_cons (by simp)]
      exact List.getLast_concat t
    have hB : ringPairs ((y :: t) ++ [x]) =
        ((y :: t).zip t ++ [((y :: t).getLast (List.cons_ne_nil _ _), x)]) ++
          [(x, y)] := by
      rw [show (y :: t) ++ [x] = y :: (t ++ [x]) from rfl, ringPairs_eq, hgB]
      have hz := zip_tail_snoc (y :: t) (List.cons_ne_nil y t) x
      simp only [List.tail_cons] at hz
      rw [show (y :: (t ++ [x])).zip (t ++ [x]) =
        ((y :: t) ++ [x]).zip (((y :: t) ++ [x]).tail) from rfl]
      rw [hz]
    rw [hA, hB]
    simp only [List.mem_append, List.mem_cons, List.mem_singleton]
    tauto

theorem ringInv_rotate {s : LState} {x : Nat} {xs : List Nat}
    (h : RingInv s (x :: xs)) : RingInv s (xs ++ [x]) := by
  refine ⟨?_, fun p hp => h.2 p ((mem_ringPairs_rotate x xs p).mp hp)⟩
  exact (List.perm_append_singleton x xs).nodup_iff.mpr h.1

theorem ringInv_swap {s : LState} :
    ∀ (l m : List Nat), RingInv s (l ++ m) → RingInv s (m ++ l) := by
  intro l
  induction l with
  | nil => intro m h; simpa using h
  | cons a l' ih =>
    intro m h
    have h2 : RingInv s ((l' ++ m) ++ [a]) := ringInv_rotate h
    rw [List.append_assoc] at h2
    have h3 := ih (m ++ [a]) h2
    rw [List.append_assoc] at h3
    exact h3

/-! Reading the link fields of a well-formed ring. -/

@[simp] theorem setNxt_nxt (s : LState) (i v y : Nat) :
    (setNxt s i v).nxt y = if y = i then v else s.nxt y := by
  simp [setNxt, Function.update_apply]

@[simp] theorem setNxt_prv (s : LState) (i v y : Nat) :
    (setNxt s i v).prv y = s.prv y := rfl

@[simp] theorem setPrv_prv (s : LState) (i v y : Nat) :
    (setPrv s i v).prv y = if y = i then v else s.prv y := by
  simp [setPrv, Function.update_apply]

@[simp] theorem setPrv_nxt (s : LState) (i v y : Nat) :
    (setPrv s i v).nxt y = s.nxt y := rfl

theorem mem_zip_consec :
    ∀ (u : List Nat) (y z : Nat) (v : List Nat),
      (y, z) ∈ (u ++ y :: z :: v).zip ((u ++ y :: z :: v).tail)
  | [], y, z, v => by
    simp only [List.nil_append, List.tail_cons, List.zip_cons_cons]
    exact List.mem_cons_self _ _
  | a :: u', y, z, v => by
    have hrec := mem_zip_consec u' y z v
    simp only [List.cons_append, List.tail_cons]
    cases hM : u' ++ y :: z :: v with
    | nil => exact absurd hM (by simp)
    | cons c M =>
      rw [hM] at hrec
      simp only [List.tail_cons] at hrec
      simp only [List.zip_cons_cons]
      exact List.mem_cons_of_mem _ hrec

/-- The successor link of an element of a well-formed ring, together with
the matching predecessor link of the following node. -/
theorem ringNext {s : LState} {h : Nat} {u : List Nat} {y : Nat}
    {v : List Nat} (hi : RingInv s (h :: (u ++ y :: v))) :
    s.nxt y = v.headD h ∧ s.prv (v.headD h) = y := by
  match v with
  | z :: v' =>
    have hm : (y, z) ∈ ringPairs (h :: (u ++ y :: z :: v')) := by
      rw [ringPairs_eq]
      apply List.mem_append_left
      exact mem_zip_consec (h :: u) y z v'
    exact ⟨(hi.2 _ hm).1, (hi.2 _ hm).2⟩
  | [] =>
    have hg : (h :: (u ++ [y])).getLast (List.cons_ne_nil _ _) = y := by
      rw [List.getLast_cons (by simp)]
      exact List.getLast_concat u
    have hm : (y, h) ∈ ringPairs (h :: (u ++ [y])) := by
      rw [ringPairs_eq]
      apply List.mem_append_right
      rw [hg]
      exact List.mem_singleton.mpr rfl
    exact ⟨(hi.2 _ hm).1, (hi.2 _ hm).2⟩

/-- The predecessor link of an element of a well-formed ring, together
with the matching successor link of the preceding node. -/
theorem ringPrev {s : LState} {h : Nat} {u : List Nat} {y : Nat}
    {v : List Nat} (hi : RingInv s (h :: (u ++ y :: v))) :
    s.prv y = (h :: u).getLast (List.cons_ne_nil _ _) ∧
      s.nxt ((h :: u).getLast (List.cons_ne_nil _ _)) = y := by
  have hsplit : (h :: u).dropLast ++
      ((h :: u).getLast (List.cons_ne_nil _ _) :: y :: v) = h :: (u ++ y :: v) := by
    rw [show (h :: u).getLast (List.cons_ne_nil _ _) :: y :: v =
      [(h :: u).getLast (List.cons_ne_nil _ _)] ++ (y :: v) from rfl]
    rw [← List.append_assoc]
    rw [List.dropLast_concat_getLast (List.cons_ne_nil h u)]
    rfl
  have hm : ((h :: u).getLast (List.cons_ne_nil _ _), y) ∈
      ringPairs (h :: (u ++ y :: v)) := by
    rw [ringPairs_eq]
    apply List.mem_append_left
    have h2 := mem_zip_consec ((h :: u).dropLast)
      ((h :: u).getLast (List.cons_ne_nil _ _)) y v
    rw [hsplit] at h2
    simpa using h2
  exact ⟨(hi.2 _ hm).2, (hi.2 _ hm).1⟩

/-- The two links of the sentinel of a well-formed ring. -/
theorem headLinks {s : LState} {h : Nat} {xs : List Nat}
    (hi : RingInv s (h :: xs)) :
    s.nxt h = xs.headD h ∧ s.prv h = xs.getLastD h := by
  match xs with
  | [] =>
    have hm : (h, h) ∈ ringPairs [h] := List.mem_singleton.mpr rfl
    exact ⟨(hi.2 _ hm).1, (hi.2 _ hm).2⟩
  | x1 :: t =>
    have hm : (h, x1) ∈ ringPairs (h :: x1 :: t) := List.mem_cons_self _ _
    have hw : ((h :: x1 :: t).getLast (List.cons_ne_nil _ _), h) ∈
        ringPairs (h :: x1 :: t) := by
      rw [ringPairs_eq]
      exact List.mem_append_right _ (List.mem_singleton.mpr rfl)
    refine ⟨(hi.2 _ hm).1, ?_⟩
    have h2 := (hi.2 _ hw).2
    rwa [List.getLast_eq_getLastD] at h2

/-! Field-level descriptions of the list primitives. -/

theorem list_del_nxt (s : LState) (y w : Nat) :
    (list_del s y).nxt w = if w = s.prv y then s.nxt y else s.nxt w := by
  simp [list_del]

theorem list_del_prv (s : LState) (y w : Nat) :
    (list_del s y).prv w = if w = s.nxt y then s.prv y else s.prv w := by
  simp [list_del]

theorem list_add_nxt (s : LState) (a p w : Nat) :
    (list_add s a p).nxt w =
      if w = p then a else if w = a then s.nxt p else s.nxt w := by
  simp [list_add]

theorem list_add_prv (s : LState) (a p w : Nat) :
    (list_add s a p).prv w =
      if w = a then p else if w = s.nxt p then a else s.prv w := by
  simp [list_add]

theorem list_add_tail_nxt (s : LState) (a h w : Nat) :
    (list_add_tail s a h).nxt w =
      if w = a then h else if w = s.prv h then a else s.nxt w := by
  simp [list_add_tail]

theorem list_add_tail_prv (s : LState) (a h w : Nat) :
    (list_add_tail s a h).prv w =
      if w = h then a else if w = a then s.prv h else s.prv w := by
  simp [list_add_tail]

/-- In a duplicate-free nonempty list the last entry does not occur before
the last position. -/
theorem getLast_not_mem_dropLast (l : List Nat) (hl : l ≠ [])
    (hn : l.Nodup) : l.getLast hl ∉ l.dropLast := by
  have h2 : l.dropLast ++ [l.getLast hl] = l :=
    List.dropLast_concat_getLast hl
  have hperm := List.perm_append_singleton (l.getLast hl) l.dropLast
  rw [h2] at hperm
  have hn2 : (l.getLast hl :: l.dropLast).Nodup := hperm.nodup hn
  exact (List.nodup_cons.mp hn2).1

/-- Unlinking the first element of a well-formed ring. -/
theorem ringInv_del_head {s : LState} {y r1 : Nat} {t : List Nat}
    (hi : RingInv s (y :: r1 :: t)) :
    RingInv (list_del s y) (r1 :: t) := by
  have hny : s.nxt y = r1 := (headLinks hi).1
  have hL : (r1 :: t).getLastD y = (r1 :: t).getLast (List.cons_ne_nil _ _) := by
    rw [List.getLast_eq_getLastD, List.getLastD_cons]
  have hpy : s.prv y = (r1 :: t).getLast (List.cons_ne_nil _ _) := by
    rw [(headLinks hi).2, hL]
  have hnodup : (r1 :: t).Nodup := hi.1.of_cons
  refine ⟨hnodup, ?_⟩
  intro p hp
  rw [ringPairs_eq] at hp
  have hLne : (r1 :: t).getLast (List.cons_ne_nil _ _) ∉ (r1 :: t).dropLast :=
    getLast_not_mem_dropLast _ _ hnodup
  rcases List.mem_append.mp hp with hz | hw
  · have hmem := mem_zip_tail _ _ hz
    have hold : p ∈ ringPairs (y :: r1 :: t) := by
      rw [ringPairs_eq]
      apply List.mem_append_left
      show p ∈ (y, r1) :: (r1 :: t).zip t
      exact List.mem_cons_of_mem _ hz
    have hfacts := hi.2 p hold
    constructor
    · rw [list_del_nxt, if_neg, hfacts.1]
      rw [hpy]
      intro hcontra
      rw [hcontra] at hmem
      exact hLne hmem.1
    · rw [list_del_prv, if_neg, hfacts.2]
      rw [hny]
      intro hcontra
      rw [hcontra] at hmem
      exact (List.nodup_cons.mp hnodup).1 hmem.2
  · simp only [List.mem_singleton] at hw
    subst hw
    constructor
    · rw [list_del_nxt, if_pos (by rw [hpy]), hny]
    · rw [list_del_prv, if_pos (by rw [hny]), hpy]

theorem chainPairs_mem :
    ∀ (f : Nat) (l : List Nat) (q : Nat × Nat), q ∈ chainPairs f l →
      q.1 ∈ l ∧ q.2 ∈ l.tail ++ [f]
  | f, [], q => by simp [chainPairs]
  | f, [y], q => by
    intro hq
    simp only [chainPairs, List.mem_singleton] at hq
    subst hq
    simp
  | f, y :: z :: r, q => by
    intro hq
    rcases List.mem_cons.mp hq with h1 | h1
    · subst h1
      simp
    · have hrec := chainPairs_mem f (z :: r) q h1
      refine ⟨List.mem_cons_of_mem _ hrec.1, ?_⟩
      simp only [List.tail_cons] at hrec ⊢
      rcases List.mem_append.mp hrec.2 with h2 | h2
      · exact List.mem_append_left _ (List.mem_cons_of_mem _ h2)
      · exact List.mem_append_right _ h2

/-- Linking a fresh node right after the first node of a well-formed
ring. -/
theorem ringInv_add_head {s : LState} {p a : Nat} {rest : List Nat}
    (hi : RingInv s (p :: rest)) (ha : a ∉ p :: rest) :
    RingInv (list_add s a p) (p :: a :: rest) := by
  have hap : a ≠ p := fun hc => ha (hc ▸ List.mem_cons_self _ _)
  have hnodup : (p :: a :: rest).Nodup := by
    have h1 := hi.1
    rw [List.nodup_cons] at h1 ⊢
    refine ⟨?_, ?_⟩
    · intro hc
      rcases List.mem_cons.mp hc with hc | hc
      · exact hap hc.symm
      · exact h1.1 hc
    · rw [List.nodup_cons]
      exact ⟨fun hc => ha (List.mem_cons_of_mem _ hc), h1.2⟩
  match rest with
  | [] =>
    have hpp : s.nxt p = p := (headLinks hi).1
    refine ⟨hnodup, ?_⟩
    intro q hq
    have hq2 : q = (p, a) ∨ q = (a, p) := by
      simpa [ringPairs, chainPairs] using hq
    rcases hq2 with hq2 | hq2 <;> subst hq2
    · constructor
      · rw [list_add_nxt, if_pos rfl]
      · rw [list_add_prv, if_pos rfl]
    · constructor
      · rw [list_add_nxt, if_neg hap, if_pos rfl, hpp]
      · rw [list_add_prv, if_neg (Ne.symm hap), hpp, if_pos rfl]
  | r1 :: t =>
    have hnx : s.nxt p = r1 := (headLinks hi).1
    have hpr1 : p ∉ r1 :: t := (List.nodup_cons.mp hi.1).1
    have hr1t : r1 ∉ t := (List.nodup_cons.mp (List.nodup_cons.mp hi.1).2).1
    refine ⟨hnodup, ?_⟩
    intro q hq
    have hq2 : q = (p, a) ∨ q = (a, r1) ∨ q ∈ chainPairs p (r1 :: t) := by
      have : ringPairs (p :: a :: r1 :: t) =
          (p, a) :: (a, r1) :: chainPairs p (r1 :: t) := rfl
      rw [this] at hq
      simpa using hq
    rcases hq2 with hq2 | hq2 | hq2
    · subst hq2
      exact ⟨by rw [list_add_nxt, if_pos rfl],
        by rw [list_add_prv, if_pos rfl]⟩
    · subst hq2
      constructor
      · rw [list_add_nxt, if_neg hap, if_pos rfl, hnx]
      · have hr1a : r1 ≠ a := fun hc =>
          ha (hc ▸ List.mem_cons_of_mem _ (List.mem_cons_self _ _))
        rw [list_add_prv, if_neg hr1a, hnx, if_pos rfl]
    · have hmem := chainPairs_mem p (r1 :: t) q hq2
      have hold : q ∈ ringPairs (p :: r1 :: t) := by
        have : ringPairs (p :: r1 :: t) = (p, r1) :: chainPairs p (r1 :: t) := rfl
        rw [this]
        exact List.mem_cons_of_mem _ hq2
      have hfacts := hi.2 q hold
      have hq1p : q.1 ≠ p := fun hc => hpr1 (hc ▸ hmem.1)
      have hq1a : q.1 ≠ a := fun hc =>
        ha (hc ▸ List.mem_cons_of_mem _ hmem.1)
      have hq2a : q.2 ≠ a := by
        intro hc
        rcases List.mem_append.mp hmem.2 with h2 | h2
        · simp only [List.tail_cons] at h2
          exact ha (hc ▸ List.mem_cons_of_mem _ (List.mem_cons_of_mem _ h2))
        · simp only [List.mem_singleton] at h2
          exact hap (hc.symm.trans h2)
      have hq2r1 : q.2 ≠ r1 := by
        intro hc
        rcases List.mem_append.mp hmem.2 with h2 | h2
        · simp only [List.tail_cons] at h2
          exact hr1t (hc ▸ h2)
        · simp only [List.mem_singleton] at h2
          exact hpr1 ((hc ▸ h2) ▸ List.mem_cons_self r1 t)
      constructor
      · rw [list_add_nxt, if_neg hq1p, if_neg hq1a]
        exact hfacts.1
      · rw [list_add_prv, if_neg hq2a, hnx, if_neg hq2r1]
        exact hfacts.2

/-- Unlinking an element at an arbitrary position of a well-formed ring
(the sentinel `h` stays first). -/
theorem ringInv_del {s : LState} {h : Nat} {u : List Nat} {y : Nat}
    {v : List Nat} (hi : RingInv s (h :: (u ++ y :: v))) :
    RingInv (list_del s y) (h :: (u ++ v)) := by
  have h0 : RingInv s ((h :: u) ++ (y :: v)) := hi
  have h1 : RingInv s ((y :: v) ++ (h :: u)) := ringInv_swap _ _ h0
  have h1b : RingInv s (y :: (v ++ h :: u)) := h1
  have h2 : RingInv (list_del s y) (v ++ h :: u) := by
    obtain ⟨r1, t, hrt⟩ := List.exists_cons_of_ne_nil
      (show v ++ h :: u ≠ [] by simp)
    rw [hrt]
    rw [hrt] at h1b
    exact ringInv_del_head h1b
  have h3 : RingInv (list_del s y) ((h :: u) ++ v) := ringInv_swap _ _ h2
  exact h3

/-- Linking a fresh node right after an arbitrary node of a well-formed
ring. -/
theorem ringInv_add_after {s : LState} {h : Nat} {u : List Nat} {p : Nat}
    {v : List Nat} {a : Nat} (hi : RingInv s (h :: (u ++ p :: v)))
    (ha : a ∉ h :: (u ++ p :: v)) :
    RingInv (list_add s a p) (h :: (u ++ p :: a :: v)) := by
  have h0 : RingInv s ((h :: u) ++ (p :: v)) := hi
  have h1 : RingInv s (p :: (v ++ h :: u)) := ringInv_swap _ _ h0
  have ha2 : a ∉ p :: (v ++ h :: u) := by
    intro hc
    apply ha
    simp only [List.mem_cons, List.mem_append] at hc ⊢
    tauto
  have h2 : RingInv (list_add s a p) (p :: a :: (v ++ h :: u)) :=
    ringInv_add_head h1 ha2
  have h3 : RingInv (list_add s a p) ((p :: a :: v) ++ (h :: u)) := h2
  have h4 : RingInv (list_add s a p) ((h :: u) ++ (p :: a :: v)) :=
    ringInv_swap _ _ h3
  exact h4

theorem chainPairs_snoc (f : Nat) (l : List Nat) (a : Nat) (hl : l ≠ []) :
    chainPairs f (l ++ [a]) =
      l.zip l.tail ++ [(l.getLast hl, a), (a, f)] := by
  rw [chainPairs_eq_zip f (l ++ [a]) (by simp)]
  rw [zip_tail_snoc l hl a]
  have hg : (l ++ [a]).getLast (by simp) = a := List.getLast_concat l
  rw [hg, List.append_assoc]
  rfl

/-- Linking a fresh node right before the sentinel (`list_add_tail` at the
sentinel appends the node at the tail of the queue). -/
theorem ringInv_add_tail {s : LState} {h a : Nat} {xs : List Nat}
    (hi : RingInv s (h :: xs)) (ha : a ∉ h :: xs) :
    RingInv (list_add_tail s a h) (h :: (xs ++ [a])) := by
  have hah : a ≠ h := fun hc => ha (hc ▸ List.mem_cons_self _ _)
  have hnodup : (h :: (xs ++ [a])).Nodup := by
    rw [show h :: (xs ++ [a]) = (h :: xs) ++ [a] from rfl, List.nodup_append]
    refine ⟨hi.1, by simp, ?_⟩
    intro b hb
    simp only [List.mem_singleton]
    intro hc
    exact ha (hc ▸ hb)
  match xs with
  | [] =>
    have hpv : s.prv h = h := (headLinks hi).2
    refine ⟨hnodup, ?_⟩
    intro q hq
    have hq2 : q = (h, a) ∨ q = (a, h) := by
      simpa [ringPairs, chainPairs] using hq
    rcases hq2 with hq2 | hq2 <;> subst hq2
    · constructor
      · rw [list_add_tail_nxt, if_neg (Ne.symm hah), hpv, if_pos rfl]
      · rw [list_add_tail_prv, if_neg hah, if_pos rfl, hpv]
    · constructor
      · rw [list_add_tail_nxt, if_pos rfl]
      · rw [list_add_tail_prv, if_pos rfl]
  | x1 :: t =>
    have hpv : s.prv h = (h :: x1 :: t).getLast (List.cons_ne_nil _ _) := by
      rw [List.getLast_eq_getLastD]
      exact (headLinks hi).2
    have hLmem : (h :: x1 :: t).getLast (List.cons_ne_nil _ _) ∈ h :: x1 :: t :=
      List.getLast_mem _
    have hLdrop : (h :: x1 :: t).getLast (List.cons_ne_nil _ _) ∉
        (h :: x1 :: t).dropLast :=
      getLast_not_mem_dropLast _ _ hi.1
    refine ⟨hnodup, ?_⟩
    intro q hq
    have hrp : ringPairs (h :: (x1 :: t ++ [a])) =
        (h :: x1 :: t).zip (x1 :: t) ++
          [((h :: x1 :: t).getLast (List.cons_ne_nil _ _), a), (a, h)] := by
      show chainPairs h (h :: (x1 :: t ++ [a])) = _
      rw [show h :: (x1 :: t ++ [a]) = (h :: x1 :: t) ++ [a] from rfl]
      rw [chainPairs_snoc h (h :: x1 :: t) a (List.cons_ne_nil _ _)]
      rfl
    rw [hrp] at hq
    have hq2 : q ∈ (h :: x1 :: t).zip (x1 :: t) ∨
        q = ((h :: x1 :: t).getLast (List.cons_ne_nil _ _), a) ∨ q = (a, h) := by
      rcases List.mem_append.mp hq with h1 | h1
      · exact Or.inl h1
      · rcases List.mem_cons.mp h1 with h1 | h1
        · exact Or.inr (Or.inl h1)
        · exact Or.inr (Or.inr (List.mem_singleton.mp h1))
    rcases hq2 with hq2 | hq2 | hq2
    · have hmem := mem_zip_tail (h :: x1 :: t) q (by simpa using hq2)
      have hold : q ∈ ringPairs (h :: x1 :: t) := by
        rw [ringPairs_eq]
        exact List.mem_append_left _ (by simpa using hq2)
      have hfacts := hi.2 q hold
      have hq1a : q.1 ≠ a := fun hc =>
        ha (hc ▸ List.mem_of_mem_dropLast hmem.1)
      have hq1L : q.1 ≠ (h :: x1 :: t).getLast (List.cons_ne_nil _ _) :=
        fun hc => hLdrop (hc ▸ hmem.1)
      have hq2h : q.2 ≠ h := by
        intro hc
        have := hc ▸ hmem.2
        exact (List.nodup_cons.mp hi.1).1 (by simpa using this)
      have hq2a : q.2 ≠ a := fun hc =>
        ha (hc ▸ List.mem_cons_of_mem _ (by simpa using hmem.2))
      constructor
      · rw [list_add_tail_nxt, if_neg hq1a, hpv, if_neg hq1L]
        exact hfacts.1
      · rw [list_add_tail_prv, if_neg hq2h, if_neg hq2a]
        exact hfacts.2
    · subst hq2
      have hLa : (h :: x1 :: t).getLast (List.cons_ne_nil _ _) ≠ a :=
        fun hc => ha (hc ▸ hLmem)
      constructor
      · rw [list_add_tail_nxt, if_neg hLa, hpv, if_pos rfl]
      · rw [list_add_tail_prv, if_neg hah, if_pos rfl, hpv]
    · subst hq2
      constructor
      · rw [list_add_tail_nxt, if_pos rfl]
      · rw [list_add_tail_prv, if_pos rfl]

/-! Extraction of the element sequence by pointer traversal. -/

theorem extractChain_eq :
    ∀ (rest done : List Nat) (s : LState) (h : Nat),
      RingInv s (h :: (done ++ rest)) →
      extractChain s h rest.length (rest.headD h) = rest
  | [], done, s, h => fun _ => rfl
  | r1 :: rt, done, s, h => fun hi => by
    have hr1 : r1 ∈ done ++ r1 :: rt := by simp
    have hne : r1 ≠ h := fun hc =>
      (List.nodup_cons.mp hi.1).1 (hc ▸ hr1)
    show (if r1 = h then [] else
      r1 :: extractChain s h rt.length (s.nxt r1)) = r1 :: rt
    rw [if_neg hne]
    have hnx : s.nxt r1 = rt.headD h := (ringNext hi).1
    rw [hnx]
    have hi2 : RingInv s (h :: ((done ++ [r1]) ++ rt)) := by
      rw [List.append_assoc]
      exact hi
    rw [extractChain_eq rt (done ++ [r1]) s h hi2]

theorem extractChain_ring {s : LState} {h : Nat} {xs : List Nat}
    (hi : RingInv s (h :: xs)) :
    extractChain s h xs.length (s.nxt h) = xs := by
  rw [(headLinks hi).1]
  exact extractChain_eq xs [] s h (by simpa using hi)

/-! Ring preservation of the individual operations. -/

theorem ringInv_insert_headP {s : LState} {h : Nat} {xs : List Nat}
    (hi : RingInv s (h :: xs)) {a : Nat} (ha : a ∉ h :: xs) :
    RingInv (q_insert_headP s h a) (h :: (a :: xs)) :=
  ringInv_add_head hi ha

theorem ringInv_insert_tailP {s : LState} {h : Nat} {xs : List Nat}
    (hi : RingInv s (h :: xs)) {a : Nat} (ha : a ∉ h :: xs) :
    RingInv (q_insert_tailP s h a) (h :: (xs ++ [a])) :=
  ringInv_add_tail hi ha

theorem ringInv_remove_headP {s : LState} {h : Nat} {xs : List Nat}
    (hi : RingInv s (h :: xs)) :
    RingInv (q_remove_headP s h) (h :: xs.tail) := by
  match xs with
  | [] =>
    have hx : s.nxt h = h := (headLinks hi).1
    unfold q_remove_headP
    rw [if_pos hx]
    exact hi
  | x1 :: t =>
    have hx : s.nxt h = x1 := (headLinks hi).1
    have hne : s.nxt h ≠ h := by
      rw [hx]
      intro hc
      exact (List.nodup_cons.mp hi.1).1 (hc ▸ List.mem_cons_self _ _)
    unfold q_remove_headP
    rw [if_neg hne, hx]
    exact @ringInv_del s h [] x1 t hi

theorem ringInv_remove_tailP {s : LState} {h : Nat} {xs : List Nat}
    (hi : RingInv s (h :: xs)) :
    RingInv (q_remove_tailP s h) (h :: xs.dropLast) := by
  rcases List.eq_nil_or_concat xs with rfl | ⟨ys, y, hxs⟩
  · have hx : s.nxt h = h := (headLinks hi).1
    unfold q_remove_tailP
    rw [if_pos hx]
    exact hi
  · rw [List.concat_eq_append] at hxs
    subst hxs
    have hne : s.nxt h ≠ h := by
      rw [(headLinks hi).1]
      cases ys with
      | nil =>
        intro hc
        simp only [List.nil_append, List.headD_cons] at hc
        refine (List.nodup_cons.mp hi.1).1 ?_
        rw [← hc]
        simp
      | cons c t =>
        intro hc
        simp only [List.cons_append, List.headD_cons] at hc
        refine (List.nodup_cons.mp hi.1).1 ?_
        rw [← hc]
        simp
    have hpv : s.prv h = y := by
      rw [(headLinks hi).2]
      simp
    unfold q_remove_tailP
    rw [if_neg hne, hpv, List.dropLast_concat]
    have h2 := @ringInv_del s h ys y [] hi
    simpa using h2

/-! Reading links by index; the middle-deletion walk. -/

theorem getD_mem_of_lt {xs : List Nat} {h : Nat} {i : Nat}
    (hi : i < xs.length) : xs.getD i h ∈ xs := by
  rw [List.getD_eq_getElem _ _ hi]
  exact List.getElem_mem hi

theorem getD_ne_head {xs : List Nat} {h : Nat} (hh : h ∉ xs) {i : Nat}
    (hi : i < xs.length) : xs.getD i h ≠ h :=
  fun hc => hh (hc ▸ getD_mem_of_lt hi)

theorem getD_inj {xs : List Nat} (hn : xs.Nodup) {h : Nat} {i j : Nat}
    (hi : i < xs.length) (hj : j < xs.length) :
    xs.getD i h = xs.getD j h ↔ i = j := by
  rw [List.getD_eq_getElem _ _ hi, List.getD_eq_getElem _ _ hj]
  exact hn.getElem_inj_iff

theorem ring_split_getD {xs : List Nat} {h : Nat} {i : Nat}
    (hi : i < xs.length) :
    xs.take i ++ xs.getD i h :: xs.drop (i + 1) = xs := by
  rw [List.getD_eq_getElem _ _ hi]
  conv_rhs => rw [← List.take_append_drop i xs]
  congr 1
  exact (List.drop_eq_getElem_cons hi).symm

theorem ring_nxt_getD {s : LState} {h : Nat} {xs : List Nat}
    (hi : RingInv s (h :: xs)) {i : Nat} (hilt : i < xs.length) :
    s.nxt (xs.getD i h) =
      if i + 1 < xs.length then xs.getD (i + 1) h else h := by
  have hi2 : RingInv s (h :: (xs.take i ++ xs.getD i h :: xs.drop (i + 1))) := by
    rw [ring_split_getD hilt]
    exact hi
  have h2 := (ringNext hi2).1
  rw [h2]
  by_cases hlt : i + 1 < xs.length
  · rw [if_pos hlt, List.drop_eq_getElem_cons hlt]
    simp only [List.headD_cons]
    rw [List.getD_eq_getElem _ _ hlt]
  · rw [if_neg hlt, List.drop_eq_nil_of_le (by omega)]
    rfl

theorem ring_prv_getD {s : LState} {h : Nat} {xs : List Nat}
    (hi : RingInv s (h :: xs)) {j : Nat} (hj : j < xs.length)
    (hj1 : 1 ≤ j) : s.prv (xs.getD j h) = xs.getD (j - 1) h := by
  have hi2 : RingInv s (h :: (xs.take j ++ xs.getD j h :: xs.drop (j + 1))) := by
    rw [ring_split_getD hj]
    exact hi
  have h2 := (ringPrev hi2).1
  rw [h2]
  have htne : xs.take j ≠ [] := by
    intro hc
    rcases List.take_eq_nil_iff.mp hc with hc2 | hc2
    · omega
    · rw [hc2] at hj
      simp at hj
  rw [List.getLast_cons htne, List.getLast_eq_getElem,
    List.getD_eq_getElem _ _ (show j - 1 < xs.length by omega)]
  simp only [List.getElem_take]
  have hidx : (xs.take j).length - 1 = j - 1 := by
    simp only [List.length_take]
    omega
  simp only [hidx]

theorem midWalkP_eq {s : LState} {h : Nat} {xs : List Nat}
    (hi : RingInv s (h :: xs)) :
    ∀ (f i j : Nat), i ≤ j → j < xs.length →
      midWalkP s f (xs.getD i h) (xs.getD j h) =
        (midWalkF f i j).map (fun k => xs.getD k h) := by
  have hn : xs.Nodup := hi.1.of_cons
  have hh : h ∉ xs := (List.nodup_cons.mp hi.1).1
  intro f
  induction f with
  | zero => intro i j _ _; rfl
  | succ f ih =>
    intro i j hij hj
    have hilt : i < xs.length := by omega
    by_cases h1 : i = j
    · subst h1
      show (if xs.getD i h = xs.getD i h then _ else _) = _
      rw [if_pos rfl]
      show _ = (if i = i then some i else _).map _
      rw [if_pos rfl]
      rfl
    · have hne : xs.getD i h ≠ xs.getD j h :=
        fun hc => h1 ((getD_inj hn hilt hj).mp hc)
      have hnx := ring_nxt_getD hi hilt
      show (if xs.getD i h = xs.getD j h then _
        else if s.nxt (xs.getD i h) = xs.getD j h then some (xs.getD j h)
        else midWalkP s f (s.nxt (xs.getD i h)) (s.prv (xs.getD j h))) = _
      rw [if_neg hne]
      by_cases h2 : i + 1 = j
      · have hcond : s.nxt (xs.getD i h) = xs.getD j h := by
          rw [hnx, if_pos (by omega), h2]
        rw [if_pos hcond]
        show _ = (if i = j then _ else if i + 1 = j then some j else _).map _
        rw [if_neg h1, if_pos h2]
        rfl
      · have hcond : s.nxt (xs.getD i h) ≠ xs.getD j h := by
          rw [hnx]
          by_cases hlt : i + 1 < xs.length
          · rw [if_pos hlt]
            exact fun hc => h2 ((getD_inj hn hlt hj).mp hc)
          · rw [if_neg hlt]
            exact fun hc => (getD_ne_head hh hj) hc.symm
        rw [if_neg hcond]
        have hij2 : i + 2 ≤ j := by omega
        have hnx2 : s.nxt (xs.getD i h) = xs.getD (i + 1) h := by
          rw [hnx, if_pos (by omega)]
        have hpv : s.prv (xs.getD j h) = xs.getD (j - 1) h :=
          ring_prv_getD hi hj (by omega)
        rw [hnx2, hpv, ih (i + 1) (j - 1) (by omega) (by omega)]
        show _ = (if i = j then _ else if i + 1 = j then _
          else midWalkF f (i + 1) (j - 1)).map _
        rw [if_neg h1, if_neg h2]

theorem ringInv_delete_midP {s : LState} {h : Nat} {xs : List Nat}
    (hi : RingInv s (h :: xs)) :
    RingInv (q_delete_midP s h xs.length)
      (h :: xs.eraseIdx (xs.length / 2)) := by
  match xs with
  | [] =>
    have hx : s.nxt h = h := (headLinks hi).1
    unfold q_delete_midP
    rw [if_pos hx]
    exact hi
  | x1 :: t =>
    have hlen : (x1 :: t).length = t.length + 1 := rfl
    have hne : s.nxt h ≠ h := by
      rw [(headLinks hi).1]
      intro hc
      exact (List.nodup_cons.mp hi.1).1 (hc ▸ List.mem_cons_self _ _)
    have hstart : s.nxt h = (x1 :: t).getD 0 h := (headLinks hi).1
    have hend : s.prv h = (x1 :: t).getD ((x1 :: t).length - 1) h := by
      rw [(headLinks hi).2, ← List.getLast_eq_getLastD,
        List.getLast_cons (List.cons_ne_nil x1 t),
        List.getLast_eq_getElem,
        List.getD_eq_getElem _ _ (by simp)]
    have hwalk := midWalkP_eq hi (x1 :: t).length 0 ((x1 :: t).length - 1)
      (by omega) (by simp)
    rw [midWalkF_start (x1 :: t).length (by simp)] at hwalk
    have hmid : (x1 :: t).length / 2 < (x1 :: t).length := by
      simp only [List.length_cons]
      omega
    unfold q_delete_midP
    rw [if_neg hne, hstart, hend, hwalk]
    simp only [Option.map_some']
    have hsplit := @ring_split_getD (x1 :: t) h ((x1 :: t).length / 2) hmid
    have hi2 : RingInv s (h :: ((x1 :: t).take ((x1 :: t).length / 2) ++
        (x1 :: t).getD ((x1 :: t).length / 2) h ::
          (x1 :: t).drop ((x1 :: t).length / 2 + 1))) := by
      rw [hsplit]
      exact hi
    have h3 := ringInv_del hi2
    rw [List.eraseIdx_eq_take_drop_succ]
    exact h3

/-! Reversal. -/

theorem chainPairs_zip (f : Nat) :
    ∀ (l : List Nat), chainPairs f l = l.zip (l.tail ++ [f])
  | [] => rfl
  | [y] => rfl
  | y :: z :: r => by
    show (y, z) :: chainPairs f (z :: r) = _
    rw [chainPairs_zip f (z :: r)]
    rfl

theorem ringPairs_zip (x : Nat) (t : List Nat) :
    ringPairs (x :: t) = (x :: t).zip (t ++ [x]) := by
  show chainPairs x (x :: t) = _
  rw [chainPairs_zip]
  rfl

theorem zip_reverse_eq :
    ∀ (l m : List Nat), l.length = m.length →
      l.reverse.zip m.reverse = (l.zip m).reverse
  | [], [], _ => rfl
  | [], _ :: _, h => by simp at h
  | _ :: _, [], h => by simp at h
  | a :: l, b :: m, h => by
    simp only [List.length_cons, Nat.add_right_cancel_iff] at h
    simp only [List.reverse_cons]
    rw [List.zip_append (by simp [h]), zip_reverse_eq l m h]
    simp

theorem mem_ringPairs_reverse (h : Nat) (xs : List Nat) (p : Nat × Nat) :
    p ∈ ringPairs (h :: xs.reverse) ↔ (p.2, p.1) ∈ ringPairs (h :: xs) := by
  have h1 : ringPairs (h :: xs.reverse) =
      ((xs ++ [h]).zip (h :: xs)).reverse := by
    rw [ringPairs_zip]
    have h2 : h :: xs.reverse = (xs ++ [h]).reverse := by simp
    have h3 : xs.reverse ++ [h] = (h :: xs).reverse := by simp
    rw [h2, h3, zip_reverse_eq _ _ (by simp)]
  have h4 : (xs ++ [h]).zip (h :: xs) =
      (ringPairs (h :: xs)).map Prod.swap := by
    rw [ringPairs_zip, List.zip_swap]
  rw [h1, h4, List.mem_reverse, List.mem_map]
  constructor
  · rintro ⟨q, hq, hqp⟩
    have : q = (p.2, p.1) := by
      rw [← hqp]
      rfl
    exact this ▸ hq
  · intro hp
    exact ⟨(p.2, p.1), hp, rfl⟩

@[simp] theorem swapNode_nxt (s : LState) (c y : Nat) :
    (swapNode s c).nxt y = if y = c then s.prv c else s.nxt y := by
  simp [swapNode]

@[simp] theorem swapNode_prv (s : LState) (c y : Nat) :
    (swapNode s c).prv y = if y = c then s.nxt c else s.prv y := by
  simp [swapNode]

theorem foldl_swapNode :
    ∀ (l : List Nat) (s : LState) (y : Nat), l.Nodup →
      (l.foldl swapNode s).nxt y = (if y ∈ l then s.prv y else s.nxt y) ∧
      (l.foldl swapNode s).prv y = (if y ∈ l then s.nxt y else s.prv y)
  | [], s, y, _ => by simp
  | c :: t, s, y, hnd => by
    have hrec := foldl_swapNode t (swapNode s c) y hnd.of_cons
    show ((swapNode s c) |> (t.foldl swapNode)).nxt y = _ ∧ _
    by_cases hy : y = c
    · subst hy
      have hyt : y ∉ t := (List.nodup_cons.mp hnd).1
      simp only [List.foldl_cons] at hrec ⊢
      rw [hrec.1, hrec.2, if_neg hyt, if_neg hyt]
      simp [List.mem_cons]
    · simp only [List.foldl_cons]
      rw [hrec.1, hrec.2]
      by_cases hyt : y ∈ t
      · rw [if_pos hyt, if_pos hyt, swapNode_nxt, swapNode_prv,
          if_neg hy, if_neg hy]
        simp [List.mem_cons, hyt]
      · rw [if_neg hyt, if_neg hyt, swapNode_nxt, swapNode_prv,
          if_neg hy, if_neg hy]
        have : y ∉ c :: t := by simp [hy, hyt]
        simp [this]

theorem ringInv_reverseP {s : LState} {h : Nat} {xs : List Nat}
    (hi : RingInv s (h :: xs)) :
    RingInv (q_reverseP s h xs.length) (h :: xs.reverse) := by
  unfold q_reverseP
  rw [extractChain_ring hi]
  have hnd : (xs ++ [h]).Nodup :=
    ((List.perm_append_singleton h xs).nodup_iff).mpr hi.1
  have hmemiff : ∀ y : Nat, y ∈ xs ++ [h] ↔ y ∈ h :: xs := by
    intro y
    simp [List.mem_append, List.mem_cons, or_comm]
  refine ⟨?_, ?_⟩
  · rw [List.nodup_cons]
    exact ⟨fun hc => (List.nodup_cons.mp hi.1).1 (List.mem_reverse.mp hc),
      (List.nodup_reverse).mpr hi.1.of_cons⟩
  · intro p hp
    rw [mem_ringPairs_reverse] at hp
    have hfacts := hi.2 _ hp
    have hp1 : p.1 ∈ h :: xs := (mem_of_ringPairs hp).2
    have hp2 : p.2 ∈ h :: xs := (mem_of_ringPairs hp).1
    constructor
    · rw [(foldl_swapNode (xs ++ [h]) s p.1 hnd).1,
        if_pos ((hmemiff p.1).mpr hp1)]
      exact hfacts.2
    · rw [(foldl_swapNode (xs ++ [h]) s p.2 hnd).2,
        if_pos ((hmemiff p.2).mpr hp2)]
      exact hfacts.1

theorem LState.ext2 (a b : LState) (h1 : ∀ y, a.nxt y = b.nxt y)
    (h2 : ∀ y, a.prv y = b.prv y) : a = b := by
  cases a
  cases b
  simp only [LState.mk.injEq]
  exact ⟨funext h1, funext h2⟩

theorem reverseP_involution {s : LState} {h : Nat} {xs : List Nat}
    (hi : RingInv s (h :: xs)) :
    q_reverseP (q_reverseP s h xs.length) h xs.length = s := by
  have h1 : RingInv (q_reverseP s h xs.length) (h :: xs.reverse) :=
    ringInv_reverseP hi
  have hex2 := extractChain_ring h1
  rw [List.length_reverse] at hex2
  show q_reverseP (q_reverseP s h xs.length) h xs.length = s
  conv_lhs => rw [q_reverseP, hex2]
  conv_lhs => rw [q_reverseP, extractChain_ring hi]
  set s2 := (xs ++ [h]).foldl swapNode s with hs2
  have hnd : (xs ++ [h]).Nodup :=
    ((List.perm_append_singleton h xs).nodup_iff).mpr hi.1
  have hnd2 : (xs.reverse ++ [h]).Nodup := by
    refine ((List.perm_append_singleton h xs.reverse).nodup_iff).mpr ?_
    rw [List.nodup_cons]
    exact ⟨fun hc => (List.nodup_cons.mp hi.1).1 (List.mem_reverse.mp hc),
      (List.nodup_reverse).mpr hi.1.of_cons⟩
  have hmem2 : ∀ y : Nat, y ∈ xs.reverse ++ [h] ↔ y ∈ xs ++ [h] := by
    intro y
    simp [List.mem_append]
  apply LState.ext2
  · intro y
    rw [(foldl_swapNode (xs.reverse ++ [h]) s2 y hnd2).1]
    by_cases hy : y ∈ xs ++ [h]
    · rw [if_pos ((hmem2 y).mpr hy), (foldl_swapNode (xs ++ [h]) s y hnd).2,
        if_pos hy]
    · rw [if_neg (fun hc => hy ((hmem2 y).mp hc)),
        (foldl_swapNode (xs ++ [h]) s y hnd).1, if_neg hy]
  · intro y
    rw [(foldl_swapNode (xs.reverse ++ [h]) s2 y hnd2).2]
    by_cases hy : y ∈ xs ++ [h]
    · rw [if_pos ((hmem2 y).mpr hy), (foldl_swapNode (xs ++ [h]) s y hnd).1,
        if_pos hy]
    · rw [if_neg (fun hc => hy ((hmem2 y).mp hc)),
        (foldl_swapNode (xs ++ [h]) s y hnd).2, if_neg hy]

/-! Pairwise swap. -/

theorem swapPairs_perm : ∀ (l : List α), (swapPairs l).Perm l
  | [] => List.Perm.refl _
  | [a] => List.Perm.refl _
  | a :: b :: r => by
    show (b :: a :: swapPairs r).Perm (a :: b :: r)
    exact (((swapPairs_perm r).cons a).cons b).trans (List.Perm.swap a b r)

theorem ringInv_swapGo {h : Nat} :
    ∀ (f : Nat) (rest done : List Nat) (s : LState),
      rest.length ≤ f →
      RingInv s (h :: (done ++ rest)) →
      RingInv (q_swapPGo h f s (rest.headD h))
        (h :: (done ++ swapPairs rest)) := by
  intro f
  induction f with
  | zero =>
    intro rest done s hf hi
    have hrest : rest = [] := List.eq_nil_of_length_eq_zero (by omega)
    subst hrest
    exact hi
  | succ f ih =>
    intro rest done s hf hi
    match rest with
    | [] =>
      show RingInv (if h = h then s else _) _
      rw [if_pos rfl]
      exact hi
    | [a] =>
      have ha : a ≠ h := by
        intro hc
        exact (List.nodup_cons.mp hi.1).1 (hc ▸ (by simp : a ∈ done ++ [a]))
      have hnx : s.nxt a = h := by
        have h2 := (@ringNext s h done a [] hi).1
        simpa using h2
      show RingInv (if a = h then s else if s.nxt a = h then s else _) _
      rw [if_neg ha, hnx, if_pos rfl]
      exact hi
    | a :: b :: rt =>
      have hmem : ∀ c : Nat, c ∈ done ++ a :: b :: rt → c ≠ h := by
        intro c hc hch
        exact (List.nodup_cons.mp hi.1).1 (hch ▸ hc)
      have ha : a ≠ h := hmem a (by simp)
      have hb : b ≠ h := hmem b (by simp)
      have hnxa : s.nxt a = b := by
        have h2 := (@ringNext s h done a (b :: rt) hi).1
        simpa using h2
      have hdel : RingInv (list_del s a) (h :: (done ++ b :: rt)) :=
        @ringInv_del s h done a (b :: rt) hi
      have hafresh : a ∉ h :: (done ++ b :: rt) := by
        have hnd : (done ++ a :: (b :: rt)).Nodup := hi.1.of_cons
        have h3 := (List.nodup_cons.mp (List.nodup_middle.mp hnd)).1
        intro hc
        rcases List.mem_cons.mp hc with hc | hc
        · exact ha hc
        · exact h3 hc
      have hadd : RingInv (list_add (list_del s a) a b)
          (h :: (done ++ b :: a :: rt)) :=
        @ringInv_add_after (list_del s a) h done b rt a hdel hafresh
      have hadd2 : RingInv (list_add (list_del s a) a b)
          (h :: ((done ++ [b]) ++ a :: rt)) := by
        rw [List.append_assoc]
        exact hadd
      have hs2nxt : (list_add (list_del s a) a b).nxt a = rt.headD h := by
        have h2 := (@ringNext (list_add (list_del s a) a b) h (done ++ [b]) a rt hadd2).1
        simpa using h2
      show RingInv (if a = h then s else if s.nxt a = h then s else
        q_swapPGo h f (list_add (list_del s a) a (s.nxt a))
          ((list_add (list_del s a) a (s.nxt a)).nxt a)) _
      rw [if_neg ha, hnxa, if_neg hb, hs2nxt]
      have hlen : rt.length ≤ f := by
        simp only [List.length_cons] at hf
        omega
      have hrec := ih rt (done ++ [b, a]) (list_add (list_del s a) a b) hlen
        (by
          rw [show (done ++ [b, a]) ++ rt = done ++ b :: a :: rt by simp]
          exact hadd)
      rw [show (done ++ [b, a]) ++ swapPairs rt =
        done ++ b :: a :: swapPairs rt by simp] at hrec
      exact hrec

theorem ringInv_swapP {s : LState} {h : Nat} {xs : List Nat}
    (hi : RingInv s (h :: xs)) :
    RingInv (q_swapP s h xs.length) (h :: swapPairs xs) := by
  unfold q_swapP
  rw [(headLinks hi).1]
  exact ringInv_swapGo xs.length xs [] s le_rfl (by simpa using hi)

/-! Sorting at the pointer level. -/

theorem mergeSortF_perm (le : α → α → Bool) (f : Nat) (l : List α)
    (h : l.length ≤ f) : (mergeSortF le f l).Perm l := by
  rw [mergeSortF_eq_mergeSort le f l h]
  exact List.mergeSort_perm l le

theorem foldPairs_nxt :
    ∀ (ps : List (Nat × Nat)) (s : LState) (y : Nat), y ∉ ps.map Prod.fst →
      (ps.foldl (fun t p => setPrv (setNxt t p.1 p.2) p.2 p.1) s).nxt y =
        s.nxt y
  | [], s, y, _ => rfl
  | q :: ps', s, y, hy => by
    simp only [List.map_cons, List.mem_cons] at hy
    push_neg at hy
    simp only [List.foldl_cons]
    rw [foldPairs_nxt ps' _ y hy.2]
    simp [hy.1]

theorem foldPairs_prv :
    ∀ (ps : List (Nat × Nat)) (s : LState) (y : Nat), y ∉ ps.map Prod.snd →
      (ps.foldl (fun t p => setPrv (setNxt t p.1 p.2) p.2 p.1) s).prv y =
        s.prv y
  | [], s, y, _ => rfl
  | q :: ps', s, y, hy => by
    simp only [List.map_cons, List.mem_cons] at hy
    push_neg at hy
    simp only [List.foldl_cons]
    rw [foldPairs_prv ps' _ y hy.2]
    simp [hy.1]

theorem foldPairs_mem :
    ∀ (ps : List (Nat × Nat)) (s : LState),
      (ps.map Prod.fst).Nodup → (ps.map Prod.snd).Nodup →
      ∀ p ∈ ps,
        (ps.foldl (fun t p => setPrv (setNxt t p.1 p.2) p.2 p.1) s).nxt p.1 =
          p.2 ∧
        (ps.foldl (fun t p => setPrv (setNxt t p.1 p.2) p.2 p.1) s).prv p.2 =
          p.1
  | [], _, _, _, p, hp => absurd hp (by simp)
  | q :: ps', s, hf, hs, p, hp => by
    simp only [List.foldl_cons]
    rw [List.map_cons] at hf hs
    rcases List.mem_cons.mp hp with hp | hp
    · have hq1 : q.1 ∉ ps'.map Prod.fst := (List.nodup_cons.mp hf).1
      have hq2 : q.2 ∉ ps'.map Prod.snd := (List.nodup_cons.mp hs).1
      subst hp
      constructor
      · rw [foldPairs_nxt ps' _ p.1 hq1]
        simp
      · rw [foldPairs_prv ps' _ p.2 hq2]
        simp
    · exact foldPairs_mem ps' _ hf.of_cons hs.of_cons p hp

theorem ringInv_relink {s : LState} {x : Nat} {xs : List Nat}
    (hnd : (x :: xs).Nodup) : RingInv (relink s (x :: xs)) (x :: xs) := by
  refine ⟨hnd, ?_⟩
  intro p hp
  apply foldPairs_mem (ringPairs (x :: xs)) s ?_ ?_ p hp
  · rw [map_fst_ringPairs]
    exact hnd
  · rw [map_snd_ringPairs]
    exact ((List.perm_append_singleton x xs).nodup_iff).mpr hnd

theorem ringInv_sortP {s : LState} {h : Nat} {xs : List Nat}
    (lt : Nat → Nat → Bool) (hi : RingInv s (h :: xs)) :
    RingInv (q_sortP s h lt xs.length) (h :: mergeSortF lt xs.length xs) := by
  unfold q_sortP
  by_cases hc : s.nxt h = s.prv h
  · rw [if_pos hc]
    match xs with
    | [] => exact hi
    | [x] => exact hi
    | x :: y :: t =>
      exfalso
      have h1 : s.nxt h = x := (headLinks hi).1
      have h2 : s.prv h = (y :: t).getLastD x := by
        rw [(headLinks hi).2]
        rfl
      rw [h1, h2] at hc
      have h3 : (y :: t).getLastD x = (y :: t).getLast (List.cons_ne_nil _ _) := by
        rw [List.getLast_eq_getLastD, List.getLastD_cons]
      rw [h3] at hc
      have h4 : (y :: t).getLast (List.cons_ne_nil _ _) ∈ y :: t :=
        List.getLast_mem _
      rw [← hc] at h4
      exact (List.nodup_cons.mp hi.1.of_cons).1 h4
  · rw [if_neg hc]
    rw [extractChain_ring hi]
    have hperm := mergeSortF_perm lt xs.length xs le_rfl
    have hnd : (h :: mergeSortF lt xs.length xs).Nodup := by
      rw [List.nodup_cons]
      exact ⟨fun hm => (List.nodup_cons.mp hi.1).1 (hperm.mem_iff.mp hm),
        hperm.nodup_iff.mpr hi.1.of_cons⟩
    exact ringInv_relink hnd

/-! Duplicate deletion at the pointer level. -/

theorem ringInv_delete_dupGo (env : List Elem) {h : Nat} :
    ∀ (rest : List Elem) (delPat : Nat) (node : Elem) (done : List Nat)
      (s : LState),
      RingInv s (h :: (done ++ node.nid :: rest.map Elem.nid)) →
      RingInv (q_delete_dupP env s delPat node rest)
        (h :: (done ++ (dedupGo env delPat node rest).map Elem.nid))
  | [], delPat, node, done, s => by
    intro hi
    show RingInv (if dedupKill env delPat node then list_del s node.nid else s)
      (h :: (done ++ (if dedupKill env delPat node then [] else [node]).map
        Elem.nid))
    by_cases hk : dedupKill env delPat node
    · rw [if_pos hk, if_pos hk]
      have h2 := @ringInv_del s h done node.nid [] hi
      simpa using h2
    · rw [if_neg hk, if_neg hk]
      exact hi
  | safe :: rt, delPat, node, done, s => by
    intro hi
    show RingInv (q_delete_dupP env
      (if dedupKill env (dedupNext delPat node safe) node then
        list_del s node.nid else s) (dedupNext delPat node safe) safe rt)
      (h :: (done ++ (if dedupKill env (dedupNext delPat node safe) node then
        dedupGo env (dedupNext delPat node safe) safe rt
      else node :: dedupGo env (dedupNext delPat node safe) safe rt).map
        Elem.nid))
    by_cases hk : dedupKill env (dedupNext delPat node safe) node
    · rw [if_pos hk, if_pos hk]
      have hdel : RingInv (list_del s node.nid)
          (h :: (done ++ safe.nid :: rt.map Elem.nid)) :=
        @ringInv_del s h done node.nid (safe.nid :: rt.map Elem.nid) hi
      exact ringInv_delete_dupGo env rt (dedupNext delPat node safe) safe done
        (list_del s node.nid) hdel
    · rw [if_neg hk, if_neg hk]
      have hi2 : RingInv s
          (h :: ((done ++ [node.nid]) ++ safe.nid :: rt.map Elem.nid)) := by
        rw [show (done ++ [node.nid]) ++ safe.nid :: rt.map Elem.nid =
          done ++ node.nid :: safe.nid :: rt.map Elem.nid by simp]
        exact hi
      have hrec := ringInv_delete_dupGo env rt (dedupNext delPat node safe)
        safe (done ++ [node.nid]) s hi2
      rw [show (done ++ [node.nid]) ++
        (dedupGo env (dedupNext delPat node safe) safe rt).map Elem.nid =
        done ++ node.nid ::
          (dedupGo env (dedupNext delPat node safe) safe rt).map Elem.nid
        by simp] at hrec
      exact hrec

/-- C6: every operation — insertion at either end, removal at either end,
middle deletion, duplicate deletion, pairwise swap, reversal and sort —
applied to a well-formed queue leaves the queue well-formed: in the
resulting ring (sentinel included) every node's successor's predecessor
and predecessor's successor is the node itself. -/
theorem c6_operations_preserve_wellformedness :
    (∀ (s : LState) (h : Nat) (xs : List Nat) (a : Nat),
      RingInv s (h :: xs) → a ∉ h :: xs →
      Consistent (q_insert_headP s h a) (h :: (a :: xs))) ∧
    (∀ (s : LState) (h : Nat) (xs : List Nat) (a : Nat),
      RingInv s (h :: xs) → a ∉ h :: xs →
      Consistent (q_insert_tailP s h a) (h :: (xs ++ [a]))) ∧
    (∀ (s : LState) (h : Nat) (xs : List Nat),
      RingInv s (h :: xs) →
      Consistent (q_remove_headP s h) (h :: xs.tail)) ∧
    (∀ (s : LState) (h : Nat) (xs : List Nat),
      RingInv s (h :: xs) →
      Consistent (q_remove_tailP s h) (h :: xs.dropLast)) ∧
    (∀ (s : LState) (h : Nat) (xs : List Nat),
      RingInv s (h :: xs) →
      Consistent (q_delete_midP s h xs.length)
        (h :: xs.eraseIdx (xs.length / 2))) ∧
    (∀ (env : List Elem) (s : LState) (h : Nat) (x : Elem) (xs : List Elem)
      (delPat : Nat),
      RingInv s (h :: (x :: xs).map Elem.nid) →
      Consistent (q_delete_dupP env s delPat x xs)
        (h :: (dedupGo env delPat x xs).map Elem.nid)) ∧
    (∀ (s : LState) (h : Nat) (xs : List Nat),
      RingInv s (h :: xs) →
      Consistent (q_swapP s h xs.length) (h :: swapPairs xs)) ∧
    (∀ (s : LState) (h : Nat) (xs : List Nat),
      RingInv s (h :: xs) →
      Consistent (q_reverseP s h xs.length) (h :: xs.reverse)) ∧
    (∀ (s : LState) (h : Nat) (xs : List Nat) (lt : Nat → Nat → Bool),
      RingInv s (h :: xs) →
      Consistent (q_sortP s h lt xs.length)
        (h :: mergeSortF lt xs.length xs)) := by
  refine ⟨?_, ?_, ?_, ?_, ?_, ?_, ?_, ?_, ?_⟩
  · intro s h xs a hi ha
    exact ringInv_consistent (ringInv_insert_headP hi ha)
  · intro s h xs a hi ha
    exact ringInv_consistent (ringInv_insert_tailP hi ha)
  · intro s h xs hi
    exact ringInv_consistent (ringInv_remove_headP hi)
  · intro s h xs hi
    exact ringInv_consistent (ringInv_remove_tailP hi)
  · intro s h xs hi
    exact ringInv_consistent (ringInv_delete_midP hi)
  · intro env s h x xs delPat hi
    have h2 := ringInv_delete_dupGo env xs delPat x [] s (by simpa using hi)
    exact ringInv_consistent (by simpa using h2)
  · intro s h xs hi
    exact ringInv_consistent (ringInv_swapP hi)
  · intro s h xs hi
    exact ringInv_consistent (ringInv_reverseP hi)
  · intro s h xs lt hi
    exact ringInv_consistent (ringInv_sortP lt hi)

/-- Witness for C6 on the concrete four-node ring. -/
theorem c6_witness :
    Consistent (q_insert_headP demoState 0 9) (0 :: (9 :: [1, 2, 3])) ∧
    Consistent (q_insert_tailP demoState 0 9) (0 :: ([1, 2, 3] ++ [9])) ∧
    Consistent (q_remove_headP demoState 0) (0 :: [2, 3]) ∧
    Consistent (q_remove_tailP demoState 0) (0 :: [1, 2]) ∧
    Consistent (q_delete_midP demoState 0 3) (0 :: [1, 3]) ∧
    Consistent
      (q_delete_dupP [⟨1, 10, [97]⟩, ⟨2, 12, [97]⟩, ⟨3, 14, [98]⟩] demoState 0
        ⟨1, 10, [97]⟩ [⟨2, 12, [97]⟩, ⟨3, 14, [98]⟩])
      (0 :: (dedupGo [⟨1, 10, [97]⟩, ⟨2, 12, [97]⟩, ⟨3, 14, [98]⟩] 0
        ⟨1, 10, [97]⟩ [⟨2, 12, [97]⟩, ⟨3, 14, [98]⟩]).map Elem.nid) ∧
    Consistent (q_swapP demoState 0 3) (0 :: swapPairs [1, 2, 3]) ∧
    Consistent (q_reverseP demoState 0 3) (0 :: [1, 2, 3].reverse) ∧
    Consistent (q_sortP demoState 0 (fun a b => decide (b ≤ a)) 3)
      (0 :: mergeSortF (fun a b => decide (b ≤ a)) 3 [1, 2, 3]) := by
  refine ⟨c6_operations_preserve_wellformedness.1 demoState 0 [1, 2, 3] 9
      (by decide) (by decide),
    c6_operations_preserve_wellformedness.2.1 demoState 0 [1, 2, 3] 9
      (by decide) (by decide),
    c6_operations_preserve_wellformedness.2.2.1 demoState 0 [1, 2, 3]
      (by decide),
    c6_operations_preserve_wellformedness.2.2.2.1 demoState 0 [1, 2, 3]
      (by decide),
    c6_operations_preserve_wellformedness.2.2.2.2.1 demoState 0 [1, 2, 3]
      (by decide),
    c6_operations_preserve_wellformedness.2.2.2.2.2.1
      [⟨1, 10, [97]⟩, ⟨2, 12, [97]⟩, ⟨3, 14, [98]⟩] demoState 0 ⟨1, 10, [97]⟩
      [⟨2, 12, [97]⟩, ⟨3, 14, [98]⟩] 0 (by decide),
    c6_operations_preserve_wellformedness.2.2.2.2.2.2.1 demoState 0 [1, 2, 3]
      (by decide),
    c6_operations_preserve_wellformedness.2.2.2.2.2.2.2.1 demoState 0
      [1, 2, 3] (by decide),
    c6_operations_preserve_wellformedness.2.2.2.2.2.2.2.2 demoState 0
      [1, 2, 3] (fun a b => decide (b ≤ a)) (by decide)⟩

/-- C8: on a well-formed queue a single `reverse` only reorders the ring
(the new ring is the reversal of the old one over the same nodes, so
nothing is allocated or freed and payloads are untouched), and applying
`reverse` twice restores the pointer state exactly. -/
theorem c8_reverse_involution :
    ∀ (s : LState) (h : Nat) (xs : List Nat), RingInv s (h :: xs) →
      q_reverseP (q_reverseP s h xs.length) h xs.length = s ∧
      RingInv (q_reverseP s h xs.length) (h :: xs.reverse) ∧
      (xs.reverse).Perm xs :=
  fun _ _ xs hi =>
    ⟨reverseP_involution hi, ringInv_reverseP hi, List.reverse_perm xs⟩

/-- Witness for C8 on the concrete four-node ring. -/
theorem c8_witness :
    q_reverseP (q_reverseP demoState 0 3) 0 3 = demoState ∧
    RingInv (q_reverseP demoState 0 3) (0 :: [1, 2, 3].reverse) ∧
    ([1, 2, 3].reverse).Perm [1, 2, 3] :=
  c8_reverse_involution demoState 0 [1, 2, 3] (by decide)

/-- C9: on a well-formed queue `swap_adjacent_pairs` exchanges the 1st and
2nd elements, the 3rd and 4th, and so on, leaving a trailing odd element
in place; the new ring is a permutation of the old nodes (nothing
allocated or freed).  On the five-element queue a, b, c, d, e the element
order becomes b, a, d, c, e. -/
theorem c9_swap_adjacent_pairs :
    (∀ (s : LState) (h : Nat) (xs : List Nat), RingInv s (h :: xs) →
      RingInv (q_swapP s h xs.length) (h :: swapPairs xs) ∧
      (swapPairs xs).Perm xs) ∧
    swapPairs [⟨1, 2, [97]⟩, ⟨3, 4, [98]⟩, ⟨5, 6, [99]⟩, ⟨7, 8, [100]⟩,
        ⟨9, 10, [101]⟩] =
      ([⟨3, 4, [98]⟩, ⟨1, 2, [97]⟩, ⟨7, 8, [100]⟩, ⟨5, 6, [99]⟩,
        ⟨9, 10, [101]⟩] : List Elem) :=
  ⟨fun _ _ xs hi => ⟨ringInv_swapP hi, swapPairs_perm xs⟩, by decide⟩

/-- Witness for C9 on the concrete four-node ring (odd element count: the
last element stays in place). -/
theorem c9_witness :
    RingInv (q_swapP demoState 0 3) (0 :: swapPairs [1, 2, 3]) ∧
    (swapPairs [1, 2, 3]).Perm [1, 2, 3] :=
  c9_swap_adjacent_pairs.1 demoState 0 [1, 2, 3] (by decide)
